import Mathlib

/-!
# Candidate distillation (`include/transforms/distiller.hpp`)

A shallow embedding of the greedy clustering engine `BaseDistiller::distill`
and of the five `condition` overrides, and of the template-bank reader
(`include/transforms/polynomial_templatebank_reader.cpp`), followed by theorems about them.

Conventions of the embedding:

* `float` / `double` values are exact rationals (`ℚ`); rounding, overflow and the values
  `inf` and `NaN` are not modelled, so nothing is stated here about candidates that sit on
  the very edge of a tolerance window.
* A `std::vector` is a `List`; `v[i]` is `v.getD i default`, `v[i] = x` is `v.set i x`.
* A counted `for` loop is a left fold over the list of the values its index takes.
* The members `cands` and `unique` that `condition` reads and writes are passed
  explicitly as an `Env`; `size` and `keep_related` are passed as arguments.
* `std::sort` is library code; it enters as a parameter `StdSort` carrying exactly
  what the C++ standard promises of it. `gnuStdSort` is the `std::sort` of GNU libstdc++,
  for runs in which the order of ties matters.
-/

namespace Distill

/-! ## Data model -/

/-- Modelled from the spec: the candidate record of `data_types/candidates.hpp`, which is
not among the sources. The field names are the ones `distiller.hpp` reads (`snr`, `freq`,
`acc`, `jerk`, `nh`, `n`, `a1`, `phi`); `related` is the sequence of absorbed candidates,
empty at construction and only ever appended to. -/
structure Candidate where
  snr : ℚ
  freq : ℚ
  acc : ℚ
  jerk : ℚ
  nh : ℕ
  n : ℚ
  a1 : ℚ
  phi : ℚ
  related : List Candidate

instance : Inhabited Candidate := ⟨⟨0, 0, 0, 0, 0, 0, 0, 0, []⟩⟩

/-- Modelled from the spec: `Candidate::append` of `data_types/candidates.hpp`, which is not
among the sources: it records `other` at the end of the `related` sequence. -/
def Candidate.append (c other : Candidate) : Candidate :=
  { c with related := c.related ++ [other] }

/-- The comparator `snr_less_than::operator()`. -/
def snr_less_than (x y : Candidate) : Bool := decide (x.snr > y.snr)

/-- The contract of `std::sort(first, last, comp)` with `comp = snr_less_than`: the result is
a rearrangement of the input in which no element is ordered by `comp` before an element that
precedes it. The order of elements that `comp` does not distinguish is left open. -/
structure StdSort where
  sort : List Candidate → List Candidate
  perm : ∀ l, (sort l).Perm l
  sorted : ∀ l, (sort l).Pairwise (fun x y => snr_less_than y x = false)

/-- The state a `condition` call works on: the candidate vector and the `unique` mask. -/
structure Env where
  cands : List Candidate
  unique : List Bool

/-- The statement `cands[idx].append(cands[ii])`. -/
def appendTo (cands : List Candidate) (idx ii : ℕ) : List Candidate :=
  cands.set idx ((cands.getD idx default).append (cands.getD ii default))

/-- The body every `condition` runs on a match:
`if (keep_related) cands[idx].append(cands[ii]); unique[ii] = false;` -/
def absorb (keep_related : Bool) (idx : ℕ) (st : Env) (ii : ℕ) : Env :=
  { cands := if keep_related then appendTo st.cands idx ii else st.cands
    unique := st.unique.set ii false }

/-! ## The five `condition` overrides -/

/-- The value of `SPEED_OF_LIGHT`. -/
def SPEED_OF_LIGHT : ℚ := 299792458

/-- The method `HarmonicDistiller::condition`. The source holds `tolerance`, `max_harm` and
`max_denominator` as `float` and adds `1 ± tolerance` in single precision; here all of them
are exact. -/
def HarmonicDistiller.condition (tolerance max_harm : ℚ) (fractional_harms : Bool)
    (keep_related : Bool) (size : ℕ) (st : Env) (idx : ℕ) : Env :=
  let upper_tol : ℚ := 1 + tolerance
  let lower_tol : ℚ := 1 - tolerance
  let fundi_freq : ℚ := (st.cands.getD idx default).freq
  (List.range' (idx + 1) (size - (idx + 1))).foldl (fun st ii =>
    let freq : ℚ := (st.cands.getD ii default).freq
    let nh : ℕ := (st.cands.getD ii default).nh
    let max_denominator : ℕ := if fractional_harms then 2 ^ nh else 1
    (List.range' 1 ⌊max_harm⌋₊).foldl (fun st (jj : ℕ) =>
      (List.range' 1 max_denominator).foldl (fun st (kk : ℕ) =>
        let ratio : ℚ := (kk : ℚ) * freq / ((jj : ℚ) * fundi_freq)
        if ratio > lower_tol ∧ ratio < upper_tol then absorb keep_related idx st ii else st)
        st) st) st

/-- The method `AccelerationDistiller::correct_for_acceleration`; the source narrows the
result to `float`, here it is exact. -/
def AccelerationDistiller.correct_for_acceleration (tobs_over_c : ℚ) (freq delta_acc : ℚ) : ℚ :=
  freq + delta_acc * freq * tobs_over_c

/-- The method `AccelerationDistiller::condition`; `tobs_over_c` is set by the constructor to
`tobs / SPEED_OF_LIGHT`. -/
def AccelerationDistiller.condition (tobs tolerance : ℚ)
    (keep_related : Bool) (size : ℕ) (st : Env) (idx : ℕ) : Env :=
  let tobs_over_c : ℚ := tobs / SPEED_OF_LIGHT
  let fundi_freq : ℚ := (st.cands.getD idx default).freq
  let fundi_acc : ℚ := (st.cands.getD idx default).acc
  let edge : ℚ := fundi_freq * tolerance
  (List.range' (idx + 1) (size - (idx + 1))).foldl (fun st ii =>
    let delta_acc : ℚ := fundi_acc - (st.cands.getD ii default).acc
    let acc_freq : ℚ := correct_for_acceleration tobs_over_c fundi_freq delta_acc
    if acc_freq > fundi_freq then
      if (st.cands.getD ii default).freq > fundi_freq - edge
          ∧ (st.cands.getD ii default).freq < acc_freq + edge then
        absorb keep_related idx st ii
      else st
    else
      if (st.cands.getD ii default).freq < fundi_freq + edge
          ∧ (st.cands.getD ii default).freq > acc_freq - edge then
        absorb keep_related idx st ii
      else st) st

/-- The method `Template_Bank_Circular_Distiller::min_doppler_freq_template_bank`; the source
narrows the result to `float`, here it is exact. -/
def Template_Bank_Circular_Distiller.min_doppler_freq_template_bank (freq n a1 : ℚ) : ℚ :=
  freq * (1 - n * a1)

/-- The method `Template_Bank_Circular_Distiller::max_doppler_freq_template_bank`; the source
narrows the result to `float`, here it is exact. -/
def Template_Bank_Circular_Distiller.max_doppler_freq_template_bank (freq n a1 : ℚ) : ℚ :=
  freq * (1 + n * a1)

/-- The method `Template_Bank_Circular_Distiller::condition`. -/
def Template_Bank_Circular_Distiller.condition (tolerance : ℚ)
    (keep_related : Bool) (size : ℕ) (st : Env) (idx : ℕ) : Env :=
  let fundi_freq : ℚ := (st.cands.getD idx default).freq
  let fundi_n : ℚ := (st.cands.getD idx default).n
  let fundi_a1 : ℚ := (st.cands.getD idx default).a1
  let edge : ℚ := fundi_freq * tolerance
  (List.range' (idx + 1) (size - (idx + 1))).foldl (fun st ii =>
    let min_doppler_fundi_freq : ℚ := min_doppler_freq_template_bank fundi_freq fundi_n fundi_a1
    let max_doppler_fundi_freq : ℚ := max_doppler_freq_template_bank fundi_freq fundi_n fundi_a1
    if (st.cands.getD ii default).freq > min_doppler_fundi_freq - edge
        ∧ (st.cands.getD ii default).freq < max_doppler_fundi_freq + edge then
      absorb keep_related idx st ii
    else st) st

/-- The method `DMDistiller::condition`. The source holds `tolerance` as a `float` and adds
`1 ± tolerance` in single precision; here the bounds and the ratio are exact. -/
def DMDistiller.condition (tolerance : ℚ)
    (keep_related : Bool) (size : ℕ) (st : Env) (idx : ℕ) : Env :=
  let fundi_freq : ℚ := (st.cands.getD idx default).freq
  let upper_tol : ℚ := 1 + tolerance
  let lower_tol : ℚ := 1 - tolerance
  (List.range' (idx + 1) (size - (idx + 1))).foldl (fun st ii =>
    let ratio : ℚ := (st.cands.getD ii default).freq / fundi_freq
    if ratio > lower_tol ∧ ratio < upper_tol then absorb keep_related idx st ii else st) st

/-- The method `Template_Bank_Polynomial_Distiller::condition`. The source computes the edges
and the differences in `double`, with the `double` literal `1e-8`; here they are exact. -/
def Template_Bank_Polynomial_Distiller.condition (freq_tolerance acc_tolerance jerk_tolerance : ℚ)
    (keep_related : Bool) (size : ℕ) (st : Env) (idx : ℕ) : Env :=
  let fundi_freq : ℚ := (st.cands.getD idx default).freq
  let fundi_acc : ℚ := (st.cands.getD idx default).acc
  let fundi_jerk : ℚ := (st.cands.getD idx default).jerk
  let edge_freq : ℚ := |fundi_freq| * freq_tolerance + 1e-8
  let edge_acc : ℚ := |fundi_acc| * acc_tolerance + 1e-8
  let edge_jerk : ℚ := |fundi_jerk| * jerk_tolerance + 1e-8
  (List.range' (idx + 1) (size - (idx + 1))).foldl (fun st ii =>
    if |(st.cands.getD ii default).freq - fundi_freq| < edge_freq
        ∧ |(st.cands.getD ii default).acc - fundi_acc| < edge_acc
        ∧ |(st.cands.getD ii default).jerk - fundi_jerk| < edge_jerk then
      absorb keep_related idx st ii
    else st) st

/-! ## The engine -/

/-- The five classes derived from `BaseDistiller`, each with the configuration its
constructor stores (`keep_related`, stored by the base class, is passed separately). -/
inductive Distiller where
  | harmonic (tolerance max_harm : ℚ) (fractional_harms : Bool)
  | acceleration (tobs tolerance : ℚ)
  | circular (tolerance : ℚ)
  | dm (tolerance : ℚ)
  | polynomial (freq_tolerance acc_tolerance jerk_tolerance : ℚ)

/-- Dispatch of the virtual method `condition`. -/
def Distiller.condition : Distiller → Bool → ℕ → Env → ℕ → Env
  | .harmonic tol mh fh => HarmonicDistiller.condition tol mh fh
  | .acceleration tobs tol => AccelerationDistiller.condition tobs tol
  | .circular tol => Template_Bank_Circular_Distiller.condition tol
  | .dm tol => DMDistiller.condition tol
  | .polynomial ft atol jt => Template_Bank_Polynomial_Distiller.condition ft atol jt

/-- The `while (true)` loop of `BaseDistiller::distill`: the inner `for` finds the first
index `ii ≥ start` with `unique[ii]` set (`none` is the sentinel `idx == -1`); when there is
one, `start = ii + 1`, `count++` and `condition(cands, idx)` run and the loop repeats. -/
def sweep (condition : Env → ℕ → Env) (size : ℕ) (st : Env) (start count : ℕ) : Env × ℕ :=
  match h : (List.range' start (size - start)).find? (fun ii => st.unique.getD ii false) with
  | none => (st, count)
  | some idx => sweep condition size (condition st idx) (idx + 1) (count + 1)
termination_by size - start
decreasing_by
  have hm := List.mem_of_find?_eq_some h
  simp only [List.mem_range'_1] at hm
  omega

/-- What a call of `distill` leaves behind: the caller's vector `cands` (sorted, and with the
`related` sequences grown), the mask `unique`, the local `count`, and the returned vector
`new_cands`. -/
structure Outcome where
  cands : List Candidate
  unique : List Bool
  count : ℕ
  new_cands : List Candidate

/-- The method `BaseDistiller::distill`. -/
def distill (S : StdSort) (d : Distiller) (keep_related : Bool) (cands : List Candidate) :
    Outcome :=
  let size : ℕ := cands.length
  let unique : List Bool := List.replicate size true
  let cands : List Candidate := S.sort cands
  let r := sweep (d.condition keep_related size) size ⟨cands, unique⟩ 0 0
  let new_cands : List Candidate := (List.range size).foldl (fun acc ii =>
    if r.1.unique.getD ii false then acc ++ [r.1.cands.getD ii default] else acc) []
  { cands := r.1.cands, unique := r.1.unique, count := r.2, new_cands := new_cands }

/-! ## Derived notions used to state the properties -/

/-- How many times the matched body of `d`'s `condition` runs for the representative `a` and
a later candidate `b`: the number of pairs `(jj, kk)` passing the ratio test for the harmonic
distiller, and `1` or `0` as the single test passes or fails for the other four. -/
def Distiller.hits : Distiller → Candidate → Candidate → ℕ
  | .harmonic tolerance max_harm fractional_harms, a, b =>
    ((List.range' 1 ⌊max_harm⌋₊).map (fun (jj : ℕ) =>
      (List.range' 1 (if fractional_harms then 2 ^ b.nh else 1)).countP (fun (kk : ℕ) =>
        decide ((kk : ℚ) * b.freq / ((jj : ℚ) * a.freq) > 1 - tolerance
          ∧ (kk : ℚ) * b.freq / ((jj : ℚ) * a.freq) < 1 + tolerance)))).sum
  | .acceleration tobs tolerance, a, b =>
    if AccelerationDistiller.correct_for_acceleration (tobs / SPEED_OF_LIGHT) a.freq
        (a.acc - b.acc) > a.freq then
      if b.freq > a.freq - a.freq * tolerance
          ∧ b.freq < AccelerationDistiller.correct_for_acceleration (tobs / SPEED_OF_LIGHT)
              a.freq (a.acc - b.acc) + a.freq * tolerance then 1 else 0
    else
      if b.freq < a.freq + a.freq * tolerance
          ∧ b.freq > AccelerationDistiller.correct_for_acceleration (tobs / SPEED_OF_LIGHT)
              a.freq (a.acc - b.acc) - a.freq * tolerance then 1 else 0
  | .circular tolerance, a, b =>
    if b.freq > Template_Bank_Circular_Distiller.min_doppler_freq_template_bank a.freq a.n a.a1
          - a.freq * tolerance
        ∧ b.freq < Template_Bank_Circular_Distiller.max_doppler_freq_template_bank a.freq a.n a.a1
          + a.freq * tolerance then 1 else 0
  | .dm tolerance, a, b =>
    if b.freq / a.freq > 1 - tolerance ∧ b.freq / a.freq < 1 + tolerance then 1 else 0
  | .polynomial freq_tolerance acc_tolerance jerk_tolerance, a, b =>
    if |b.freq - a.freq| < |a.freq| * freq_tolerance + 1e-8
        ∧ |b.acc - a.acc| < |a.acc| * acc_tolerance + 1e-8
        ∧ |b.jerk - a.jerk| < |a.jerk| * jerk_tolerance + 1e-8 then 1 else 0

/-- The active similarity predicate of `d`: the test of `condition` passes at least once for
the representative `a` and the candidate `b`. -/
def Distiller.similar (d : Distiller) (a b : Candidate) : Bool := decide (0 < d.hits a b)

/-- The scalar fields of a candidate (everything but `related`). -/
def Candidate.scalars (c : Candidate) : ℚ × ℚ × ℚ × ℚ × ℕ × ℚ × ℚ × ℚ :=
  (c.snr, c.freq, c.acc, c.jerk, c.nh, c.n, c.a1, c.phi)

/-- A candidate vector and a mask of the same length, as one list of pairs. -/
def Env.ofPairs (l : List (Candidate × Bool)) : Env := ⟨l.map Prod.fst, l.map Prod.snd⟩

/-- The candidate `a` after `l` was appended to its `related` sequence, when `keep` is set. -/
def grow (keep : Bool) (a : Candidate) (l : List Candidate) : Candidate :=
  if keep then { a with related := a.related ++ l } else a

/-- What one `condition` call for the representative `a` appends: each later candidate, as
many times as the test passes for it, in order. -/
def relatedOf (hits : Candidate → Candidate → ℕ) (a : Candidate)
    (rest : List (Candidate × Bool)) : List Candidate :=
  rest.flatMap (fun p => List.replicate (hits a p.1) p.1)

/-- What one `condition` call for the representative `a` does to the mask of the later
candidates. -/
def mark (hits : Candidate → Candidate → ℕ) (a : Candidate)
    (rest : List (Candidate × Bool)) : List (Candidate × Bool) :=
  rest.map (fun p => (p.1, p.2 && decide (hits a p.1 = 0)))

/-- The sweep of `distill` as a recursion over the not yet visited part of the paired
vector: a masked-out head is passed over, a still unique head becomes a representative. -/
def sweepSpec (hits : Candidate → Candidate → ℕ) (keep : Bool) :
    List (Candidate × Bool) → List (Candidate × Bool)
  | [] => []
  | (a, u) :: rest =>
    if u then (grow keep a (relatedOf hits a rest), true) :: sweepSpec hits keep (mark hits a rest)
    else (a, false) :: sweepSpec hits keep rest
termination_by l => l.length
decreasing_by
  all_goals simp [mark]

/-! ## Two sorts meeting the contract of `std::sort`, and sample inputs -/

/-- The order `std::sort` establishes: `y` is not ordered before `x` by the comparator. -/
def notAfter (x y : Candidate) : Prop := snr_less_than y x = false

instance : DecidableRel notAfter :=
  fun x y => inferInstanceAs (Decidable (snr_less_than y x = false))

instance : IsTotal Candidate notAfter :=
  ⟨fun a b => by
    simp only [notAfter, snr_less_than, decide_eq_false_iff_not, not_lt]
    exact le_total _ _⟩

instance : IsTrans Candidate notAfter :=
  ⟨fun a b c h1 h2 => by
    simp only [notAfter, snr_less_than, decide_eq_false_iff_not, not_lt] at h1 h2 ⊢
    exact le_trans h2 h1⟩

/-- Insertion sort by the comparator: a conforming `std::sort` that keeps ties in their
input order. -/
def insertionStdSort : StdSort where
  sort := List.insertionSort notAfter
  perm := List.perm_insertionSort notAfter
  sorted := List.sorted_insertionSort notAfter

/-! ### The `std::sort` of GNU libstdc++ (`bits/stl_algo.h`)

The vector is a list and an iterator a position in it. The loops whose end the library
leaves to a sentinel run on fuel, the length of the vector. -/

namespace GnuSort

variable {α : Type}

/-- The library function `std::iter_swap` on two positions of the vector. -/
def iter_swap (l : List α) (i j : ℕ) : List α :=
  match l[i]?, l[j]? with
  | some a, some b => (l.set i b).set j a
  | _, _ => l

/-- The comparator applied to the elements at two positions. -/
def compAt (comp : α → α → Bool) (l : List α) (i j : ℕ) : Bool :=
  match l[i]?, l[j]? with
  | some a, some b => comp a b
  | _, _ => false

/-- The library function `__move_median_to_first`. -/
def move_median_to_first (comp : α → α → Bool) (l : List α) (result a b c : ℕ) : List α :=
  if compAt comp l a b then
    if compAt comp l b c then iter_swap l result b
    else if compAt comp l a c then iter_swap l result c
    else iter_swap l result a
  else if compAt comp l a c then iter_swap l result a
  else if compAt comp l b c then iter_swap l result c
  else iter_swap l result b

/-- The loop `while (comp(first, pivot)) ++first;` of `__unguarded_partition`. -/
def scanUp (comp : α → α → Bool) (l : List α) (pivot : ℕ) : ℕ → ℕ → ℕ
  | 0, first => first
  | fuel + 1, first =>
    if compAt comp l first pivot then scanUp comp l pivot fuel (first + 1) else first

/-- The loop `while (comp(pivot, last)) --last;` of `__unguarded_partition`. -/
def scanDown (comp : α → α → Bool) (l : List α) (pivot : ℕ) : ℕ → ℕ → ℕ
  | 0, last => last
  | fuel + 1, last =>
    if compAt comp l pivot last then scanDown comp l pivot fuel (last - 1) else last

/-- The library function `__unguarded_partition`: the vector after the swaps, and the
returned cut. -/
def unguarded_partition (comp : α → α → Bool) : ℕ → List α → ℕ → ℕ → ℕ → List α × ℕ
  | 0, l, first, _, _ => (l, first)
  | fuel + 1, l, first, last, pivot =>
    let first := scanUp comp l pivot l.length first
    let last := last - 1
    let last := scanDown comp l pivot l.length last
    if !(first < last) then (l, first)
    else unguarded_partition comp fuel (iter_swap l first last) (first + 1) last pivot

/-- The library function `__unguarded_partition_pivot`. -/
def unguarded_partition_pivot (comp : α → α → Bool) (l : List α) (first last : ℕ) :
    List α × ℕ :=
  let mid := first + (last - first) / 2
  let l := move_median_to_first comp l first (first + 1) mid (last - 1)
  unguarded_partition comp l.length l (first + 1) last first

/-- The library function `__introsort_loop`, by recursion on `depth_limit`, with the
threshold `_S_threshold = 16`. When the depth limit is used up on a range longer than the
threshold the library heap-sorts the range (`__partial_sort`); that branch is not rendered,
the range is left to the final insertion pass, which sorts it as well but may order ties
differently there. It takes more than `2·⌊log₂ n⌋` nested partitions to get there. -/
def introsort_loop (comp : α → α → Bool) : ℕ → List α → ℕ → ℕ → List α
  | 0, l, _, _ => l
  | depth_limit + 1, l, first, last =>
    if last - first > 16 then
      let p := unguarded_partition_pivot comp l first last
      let l := introsort_loop comp depth_limit p.1 p.2 last
      introsort_loop comp depth_limit l first p.2
    else l

/-- The library function `__sort`: `__introsort_loop` with depth limit `2·__lg(n)`, then
`__final_insertion_sort`, a stable insertion sort, rendered by `List.insertionSort`. -/
def sort (comp : α → α → Bool) (l : List α) : List α :=
  if l.isEmpty then l
  else List.insertionSort (fun a b => comp b a = false)
    (introsort_loop comp (Nat.log2 l.length * 2) l 0 l.length)

end GnuSort

/-- The `std::sort` of GNU libstdc++ with the comparator `snr_less_than`; it meets the
contract: every step is a swap, and the last pass is an insertion sort. -/
def gnuStdSort : StdSort where
  sort := GnuSort.sort snr_less_than
  perm := by
    intro l
    have hcons : ∀ (t : List Candidate) (j : ℕ) (b x : Candidate), t[j]? = some b →
        (b :: t.set j x).Perm (x :: t) := by
      intro t
      induction t with
      | nil => intro j b x h; simp at h
      | cons y s ih =>
        intro j b x h
        cases j with
        | zero =>
          simp only [List.getElem?_cons_zero, Option.some.injEq] at h
          subst h
          exact List.Perm.swap x y s
        | succ j =>
          simp only [List.getElem?_cons_succ] at h
          exact ((List.Perm.swap y b _).trans ((ih j b x h).cons y)).trans
            (List.Perm.swap x y s)
    have hswap : ∀ (l : List Candidate) (i j : ℕ), (GnuSort.iter_swap l i j).Perm l := by
      intro l
      induction l with
      | nil => intro i j; simp [GnuSort.iter_swap]
      | cons x t ih =>
        intro i j
        cases i with
        | zero =>
          cases j with
          | zero => simp [GnuSort.iter_swap]
          | succ j =>
            cases hb : t[j]? with
            | none => simp [GnuSort.iter_swap, hb]
            | some b =>
              simp only [GnuSort.iter_swap, List.getElem?_cons_zero, List.getElem?_cons_succ,
                hb, List.set_cons_zero, List.set_cons_succ]
              exact hcons t j b x hb
        | succ i =>
          cases j with
          | zero =>
            cases ha : t[i]? with
            | none => simp [GnuSort.iter_swap, ha]
            | some a =>
              simp only [GnuSort.iter_swap, List.getElem?_cons_zero, List.getElem?_cons_succ,
                ha, List.set_cons_zero, List.set_cons_succ]
              exact hcons t i a x ha
          | succ j =>
            have h := ih i j
            cases ha : t[i]? with
            | none => simp [GnuSort.iter_swap, ha]
            | some a =>
              cases hb : t[j]? with
              | none => simp [GnuSort.iter_swap, ha, hb]
              | some b =>
                simp only [GnuSort.iter_swap, ha, hb] at h
                simp only [GnuSort.iter_swap, List.getElem?_cons_succ, ha, hb,
                  List.set_cons_succ]
                exact h.cons x
    have hmed : ∀ (l : List Candidate) (r a b c : ℕ),
        (GnuSort.move_median_to_first snr_less_than l r a b c).Perm l := by
      intro l r a b c
      simp only [GnuSort.move_median_to_first]
      split_ifs <;> exact hswap _ _ _
    have hpart : ∀ (fuel : ℕ) (l : List Candidate) (first last pivot : ℕ),
        (GnuSort.unguarded_partition snr_less_than fuel l first last pivot).1.Perm l := by
      intro fuel
      induction fuel with
      | zero => intro l first last pivot; exact List.Perm.refl _
      | succ n ih =>
        intro l first last pivot
        simp only [GnuSort.unguarded_partition]
        split_ifs
        · exact List.Perm.refl _
        · exact (ih _ _ _ _).trans (hswap _ _ _)
    have hpp : ∀ (l : List Candidate) (first last : ℕ),
        (GnuSort.unguarded_partition_pivot snr_less_than l first last).1.Perm l := by
      intro l first last
      exact (hpart _ _ _ _ _).trans (hmed _ _ _ _ _)
    have hloop : ∀ (depth : ℕ) (l : List Candidate) (first last : ℕ),
        (GnuSort.introsort_loop snr_less_than depth l first last).Perm l := by
      intro depth
      induction depth with
      | zero => intro l first last; exact List.Perm.refl _
      | succ n ih =>
        intro l first last
        simp only [GnuSort.introsort_loop]
        split_ifs
        · exact ((ih _ _ _).trans (ih _ _ _)).trans (hpp _ _ _)
        · exact List.Perm.refl _
    simp only [GnuSort.sort]
    split_ifs
    · exact List.Perm.refl _
    · exact (List.perm_insertionSort _ _).trans (hloop _ _ _ _)
  sorted := by
    intro l
    simp only [GnuSort.sort]
    split_ifs with h
    · rw [List.isEmpty_iff.mp h]
      exact List.Pairwise.nil
    · exact List.sorted_insertionSort notAfter _

/-- A candidate with the given significance and frequency, all else zero and nothing
absorbed. -/
def mkCand (snr freq : ℚ) : Candidate := ⟨snr, freq, 0, 0, 0, 0, 0, 0, []⟩

/-- The three candidates of the DM scenario. -/
def dmInput : List Candidate := [mkCand 10 100, mkCand 8 100.0005, mkCand 5 300]

/-- The three candidates of the harmonic scenario. -/
def harmonicInput : List Candidate := [mkCand 20 50, mkCand 15 100, mkCand 12 150.3]

/-- A state for the polynomial scenario: the second candidate repeats the frequency,
acceleration and jerk of the first, the jerk of the third is off by `2⁻²⁶`, a little more than
`1e-8`. -/
def polyEnv : Env :=
  ⟨[⟨10, 100, 1, 0, 0, 0, 0, 0, []⟩, ⟨8, 100, 1, 0, 0, 0, 0, 0, []⟩,
      ⟨5, 100, 1, 1 / 67108864, 0, 0, 0, 0, []⟩], [true, true, true]⟩

/-- Seventeen candidates of equal significance 5, one more than the insertion-sort threshold
of libstdc++. Under the DM test at tolerance 0.1 no two of them are similar, but for the
1000 Hz candidate as representative and the 905 Hz one after it. -/
def tieInput : List Candidate :=
  [mkCand 5 1, mkCand 5 3, mkCand 5 9, mkCand 5 27, mkCand 5 81, mkCand 5 243, mkCand 5 729,
    mkCand 5 2187, mkCand 5 905, mkCand 5 1000, mkCand 5 6561, mkCand 5 19683,
    mkCand 5 59049, mkCand 5 177147, mkCand 5 531441, mkCand 5 1594323, mkCand 5 4782969]

/-- The order libstdc++ leaves `tieInput` in. -/
def tieOnce : List Candidate :=
  [mkCand 5 905, mkCand 5 4782969, mkCand 5 1594323, mkCand 5 531441, mkCand 5 177147,
    mkCand 5 59049, mkCand 5 19683, mkCand 5 6561, mkCand 5 1000, mkCand 5 1, mkCand 5 2187,
    mkCand 5 729, mkCand 5 243, mkCand 5 81, mkCand 5 27, mkCand 5 9, mkCand 5 3]

/-- The order libstdc++ leaves `tieOnce` in. -/
def tieResorted : List Candidate :=
  [mkCand 5 1000, mkCand 5 3, mkCand 5 9, mkCand 5 27, mkCand 5 81, mkCand 5 243,
    mkCand 5 729, mkCand 5 2187, mkCand 5 1, mkCand 5 905, mkCand 5 6561, mkCand 5 19683,
    mkCand 5 59049, mkCand 5 177147, mkCand 5 531441, mkCand 5 1594323, mkCand 5 4782969]

/-- The list `tieResorted` without its 905 Hz candidate. -/
def tieTwice : List Candidate :=
  [mkCand 5 1000, mkCand 5 3, mkCand 5 9, mkCand 5 27, mkCand 5 81, mkCand 5 243,
    mkCand 5 729, mkCand 5 2187, mkCand 5 1, mkCand 5 6561, mkCand 5 19683,
    mkCand 5 59049, mkCand 5 177147, mkCand 5 531441, mkCand 5 1594323, mkCand 5 4782969]

/-! ## The template-bank reader (`include/transforms/polynomial_templatebank_reader.cpp`)

A `std::string` is a list of characters, the `std::map` an association list, and the file,
once opened, the list of the lines `std::getline` yields. `std::stod` is library code and
enters as a parameter: `none` stands for its throwing. A `throw` shows as an error returned
next to the state of the reader at that point. -/

/-- The members of the class `Polynomial_TemplateBank_Reader`. -/
structure Polynomial_TemplateBank_Reader where
  acc : List ℚ
  jerk : List ℚ
  columns : ℕ
  metadata : List (List Char × List Char)
deriving DecidableEq

namespace Polynomial_TemplateBank_Reader

/-- The library function `std::isspace` in the default locale: space, `\t`, `\n`, `\v`, `\f`,
`\r`. -/
def isspace (c : Char) : Bool :=
  c == ' ' || c == '\t' || c == '\n' || c == Char.ofNat 11 || c == Char.ofNat 12 || c == '\r'

/-- The assignment `metadata[key] = value` on the `std::map`. -/
def setMetadata (m : List (List Char × List Char)) (key value : List Char) :
    List (List Char × List Char) :=
  if m.any (fun p => p.1 == key) then m.map (fun p => if p.1 == key then (key, value) else p)
  else m ++ [(key, value)]

/-- The method `is_comment`. -/
def is_comment (line : List Char) : Bool :=
  if line.isEmpty then true else line.all (fun c => !(!isspace c && c != '-'))

/-- Reading whitespace-separated words off a stream, with the word under construction in
`cur`. -/
def splitAux (cur : List Char) : List Char → List (List Char)
  | [] => if cur.isEmpty then [] else [cur]
  | c :: cs =>
    if isspace c then (if cur.isEmpty then splitAux [] cs else cur :: splitAux [] cs)
    else splitAux (cur ++ [c]) cs

/-- The method `split`. -/
def split (s : List Char) : List (List Char) := splitAux [] s

/-- The method `trim`: what lies between the first and the last character that is none of
space, `\t`, `\r`, `\n`. -/
def trim (s : List Char) : List Char :=
  ((s.dropWhile (fun c => c == ' ' || c == '\t' || c == '\r' || c == '\n')).reverse.dropWhile
    (fun c => c == ' ' || c == '\t' || c == '\r' || c == '\n')).reverse

/-- The method `to_lower`. -/
def to_lower (s : List Char) : List Char := s.map Char.toLower

/-- The method `token_is_number`: `std::stod` does not throw. -/
def token_is_number (stod : List Char → Option ℚ) (t : List Char) : Bool := (stod t).isSome

/-- The lambda `starts_with` of `try_parse_header_line`. -/
def starts_with (s pre : List Char) : Bool := decide (s.length ≥ pre.length) && pre.isPrefixOf s

/-- The method `try_parse_header_line`: the returned flag, and the reader with the header
line stored. -/
def try_parse_header_line (r : Polynomial_TemplateBank_Reader) (line : List Char) :
    Bool × Polynomial_TemplateBank_Reader :=
  let l := to_lower (trim line)
  let key1_l := String.toList "maximum acceleration used to generate template"
  let key2_l := String.toList "maximum jerk used to generate template"
  let key1 := String.toList "Maximum acceleration used to generate template"
  let key2 := String.toList "Maximum Jerk used to generate template"
  if starts_with l key1_l then
    (true, { r with metadata := setMetadata r.metadata key1 (trim line) })
  else if starts_with l key2_l then
    (true, { r with metadata := setMetadata r.metadata key2 (trim line) })
  else (false, r)

/-- The two `std::runtime_error`s `load` throws: the file cannot be opened, and an invalid
data line, reported with its token count and its trimmed text. -/
inductive LoadError where
  | cannotOpen
  | invalidLine (tokens : ℕ) (line : List Char)
deriving DecidableEq

/-- The body of the `while (std::getline(in, line))` loop of `load`: the reader after the
line, and the error when the line makes `load` throw; `continue` and falling through the
body both return without an error. -/
def readLine (stod : List Char → Option ℚ) (r : Polynomial_TemplateBank_Reader)
    (line : List Char) : Polynomial_TemplateBank_Reader × Option LoadError :=
  let t := trim line
  if t.isEmpty || is_comment t then (r, none)
  else
    match try_parse_header_line r t with
    | (true, r) => (r, none)
    | (false, r) =>
      let tokens := split t
      if tokens.length == 2 && !(token_is_number stod (tokens.getD 0 [])
          && token_is_number stod (tokens.getD 1 [])) then (r, none)
      else
        let tokens := split t
        let r := if r.columns == 0 then { r with columns := tokens.length } else r
        if tokens.length == 2 && token_is_number stod (tokens.getD 0 [])
            && token_is_number stod (tokens.getD 1 []) then
          ({ r with acc := r.acc ++ [(stod (tokens.getD 0 [])).getD 0],
                    jerk := r.jerk ++ [(stod (tokens.getD 1 [])).getD 0] }, none)
        else
          let any_numeric := tokens.foldl (fun any_numeric tok =>
            any_numeric || token_is_number stod tok) false
          if any_numeric then (r, some (LoadError.invalidLine tokens.length t)) else (r, none)

/-- The `while` loop of `load` over the lines of the file. -/
def readLines (stod : List Char → Option ℚ) :
    Polynomial_TemplateBank_Reader → List (List Char) →
      Polynomial_TemplateBank_Reader × Option LoadError
  | r, [] => (r, none)
  | r, line :: rest =>
    match readLine stod r line with
    | (r, none) => readLines stod r rest
    | (r, some e) => (r, some e)

/-- The method `load`; `file` is `none` when the file cannot be opened and the list of its
lines otherwise. -/
def load (stod : List Char → Option ℚ) (r : Polynomial_TemplateBank_Reader)
    (file : Option (List (List Char))) : Polynomial_TemplateBank_Reader × Option LoadError :=
  match file with
  | none => (r, some LoadError.cannotOpen)
  | some lines => readLines stod r lines

/-- A reader as the member initialisers leave it, before the constructor calls `load`. -/
def fresh : Polynomial_TemplateBank_Reader := ⟨[], [], 0, []⟩

/-- The value of a string of decimal digits. -/
def digitsValue (t : List Char) : ℕ := t.foldl (fun n c => 10 * n + (c.toNat - 48)) 0

/-- A stand-in for `std::stod`, used only to instantiate statements at concrete files: it
reads plain unsigned decimal numerals, with or without a fractional part, and rejects
everything else. -/
def sampleStod (t : List Char) : Option ℚ :=
  if (t.takeWhile Char.isDigit).isEmpty then none
  else
    match t.dropWhile Char.isDigit with
    | [] => some (digitsValue (t.takeWhile Char.isDigit) : ℚ)
    | c :: fp =>
      if c == '.' && fp.all Char.isDigit then
        some ((digitsValue (t.takeWhile Char.isDigit) : ℚ) + (digitsValue fp : ℚ) / 10 ^ fp.length)
      else none

end Polynomial_TemplateBank_Reader

/-- Three candidates for the DM distiller at tolerance 0.01: the third is within tolerance of
each of the first two, which are not within tolerance of each other. -/
def multiInput : List Candidate := [mkCand 10 100, mkCand 8 101.5, mkCand 5 100.8]

/-- Two candidates at the same frequency, the second with harmonic number 1, so that with
fractional harmonics its denominators run over `kk = 1, 2`. -/
def doubleInput : List Candidate :=
  [⟨10, 50, 0, 0, 0, 0, 0, 0, []⟩, ⟨5, 50, 0, 0, 1, 0, 0, 0, []⟩]

/-! ## List bookkeeping -/

theorem getD_at {α : Type} (pre post : List α) (x d : α) (i : ℕ) (h : i = pre.length) :
    (pre ++ x :: post).getD i d = x := by
  subst h
  rw [List.getD_append_right _ _ _ _ (le_refl _)]
  simp

theorem set_at {α : Type} (pre post : List α) (x y : α) (i : ℕ) (h : i = pre.length) :
    (pre ++ x :: post).set i y = pre ++ y :: post := by
  subst h
  simp

theorem getD_at2 {α : Type} (pre mid post : List α) (x y d : α) (i : ℕ)
    (h : i = pre.length + 1 + mid.length) :
    (pre ++ x :: (mid ++ y :: post)).getD i d = y := by
  have e : pre ++ x :: (mid ++ y :: post) = (pre ++ x :: mid) ++ y :: post := by simp
  rw [e]
  exact getD_at _ _ _ _ _ (by simp [h]; omega)

theorem set_at2 {α : Type} (pre mid post : List α) (x y z : α) (i : ℕ)
    (h : i = pre.length + 1 + mid.length) :
    (pre ++ x :: (mid ++ y :: post)).set i z = pre ++ x :: (mid ++ z :: post) := by
  have e : pre ++ x :: (mid ++ y :: post) = (pre ++ x :: mid) ++ y :: post := by simp
  rw [e, set_at _ _ _ _ _ (by simp [h]; omega)]
  simp

theorem foldl_ite_iterate {σ β : Type} (f : σ → σ) (c : β → Bool) (l : List β) (s : σ) :
    l.foldl (fun s x => if c x then f s else s) s = f^[l.countP c] s := by
  induction l generalizing s with
  | nil => rfl
  | cons x t ih =>
    rw [List.foldl_cons, ih, List.countP_cons]
    by_cases hx : c x = true
    · simp [hx, Function.iterate_succ_apply]
    · simp [hx]

theorem foldl_iterate_sum {σ β : Type} (f : σ → σ) (g : β → ℕ) (l : List β) (s : σ) :
    l.foldl (fun s x => f^[g x] s) s = f^[(l.map g).sum] s := by
  induction l generalizing s with
  | nil => rfl
  | cons x t ih =>
    rw [List.foldl_cons, ih, List.map_cons, List.sum_cons, Nat.add_comm,
      Function.iterate_add_apply]

/-! ## One `condition` call -/

theorem grow_nil (keep : Bool) (a : Candidate) : grow keep a [] = a := by
  cases a
  cases keep <;> simp [grow]

theorem grow_grow (keep : Bool) (a : Candidate) (l m : List Candidate) :
    grow keep (grow keep a l) m = grow keep a (l ++ m) := by
  cases keep <;> simp [grow]

theorem grow_scalars (keep : Bool) (a : Candidate) (l : List Candidate) :
    (grow keep a l).scalars = a.scalars := by
  cases keep <;> rfl

theorem hits_congr (d : Distiller) {a a' b b' : Candidate} (ha : a.scalars = a'.scalars)
    (hb : b.scalars = b'.scalars) : d.hits a b = d.hits a' b' := by
  simp only [Candidate.scalars, Prod.mk.injEq] at ha hb
  obtain ⟨h1, h2, h3, h4, h5, h6, h7, h8⟩ := ha
  obtain ⟨k1, k2, k3, k4, k5, k6, k7, k8⟩ := hb
  cases d <;> simp only [Distiller.hits, h2, h3, h4, h6, h7, k2, k3, k4, k5]

/-- Every `condition` is the same loop: at each later index the matched body runs
`hits` times. -/
theorem condition_eq_fold (d : Distiller) (keep : Bool) (size : ℕ) (st : Env) (idx : ℕ) :
    d.condition keep size st idx =
      (List.range' (idx + 1) (size - (idx + 1))).foldl (fun s ii =>
        (fun s => absorb keep idx s ii)^[d.hits (st.cands.getD idx default)
          (s.cands.getD ii default)] s) st := by
  cases d with
  | harmonic tol mh fh =>
    simp only [Distiller.condition, HarmonicDistiller.condition, Distiller.hits]
    congr 1
    funext s ii
    rw [← foldl_iterate_sum]
    congr 1
    funext s jj
    rw [← foldl_ite_iterate]
    congr 1
    funext s kk
    simp
  | acceleration tobs tol =>
    simp only [Distiller.condition, AccelerationDistiller.condition, Distiller.hits]
    congr 1
    funext s ii
    split_ifs <;> simp
  | circular tol =>
    simp only [Distiller.condition, Template_Bank_Circular_Distiller.condition, Distiller.hits]
    congr 1
    funext s ii
    split_ifs <;> simp
  | dm tol =>
    simp only [Distiller.condition, DMDistiller.condition, Distiller.hits]
    congr 1
    funext s ii
    split_ifs <;> simp
  | polynomial ft atol jt =>
    simp only [Distiller.condition, Template_Bank_Polynomial_Distiller.condition, Distiller.hits]
    congr 1
    funext s ii
    split_ifs <;> simp

theorem absorb_iterate (keep : Bool) (pre mid post : List (Candidate × Bool))
    (a b : Candidate) (u ub : Bool) (idx ii : ℕ) (hidx : idx = pre.length)
    (hii : ii = pre.length + 1 + mid.length) (k : ℕ) :
    (fun s => absorb keep idx s ii)^[k] (Env.ofPairs (pre ++ (a, u) :: (mid ++ (b, ub) :: post)))
      = Env.ofPairs (pre ++ (grow keep a (List.replicate k b), u)
          :: (mid ++ (b, ub && decide (k = 0)) :: post)) := by
  induction k with
  | zero => simp [grow_nil]
  | succ k ih =>
    rw [Function.iterate_succ_apply', ih]
    simp only [Env.ofPairs, absorb, appendTo, List.map_append, List.map_cons]
    rw [getD_at _ _ _ _ _ (by simpa using hidx), getD_at2 _ _ _ _ _ _ _ (by simpa using hii),
      set_at _ _ _ _ _ (by simpa using hidx), set_at2 _ _ _ _ _ _ _ (by simpa using hii)]
    cases keep
    · simp [grow]
    · have hg : (grow true a (List.replicate k b)).append b
          = grow true a (List.replicate (k + 1) b) := by
        simp [grow, Candidate.append, List.replicate_succ']
      simp only [if_true, hg]
      simp

theorem fold_pairs (hits : Candidate → Candidate → ℕ) (keep : Bool) (a0 : Candidate)
    (todo : List (Candidate × Bool)) :
    ∀ (pre mid : List (Candidate × Bool)) (a : Candidate) (u : Bool) (idx : ℕ),
      idx = pre.length →
      (List.range' (pre.length + 1 + mid.length) todo.length).foldl (fun s ii =>
        (fun s => absorb keep idx s ii)^[hits a0 (s.cands.getD ii default)] s)
        (Env.ofPairs (pre ++ (a, u) :: (mid ++ todo)))
      = Env.ofPairs (pre ++ (grow keep a (relatedOf hits a0 todo), u)
          :: (mid ++ mark hits a0 todo)) := by
  induction todo with
  | nil =>
    intro pre mid a u idx _
    simp [relatedOf, mark, grow_nil]
  | cons p t ih =>
    intro pre mid a u idx hidx
    obtain ⟨b, ub⟩ := p
    rw [List.length_cons, List.range'_succ, List.foldl_cons]
    have hb : (Env.ofPairs (pre ++ (a, u) :: (mid ++ (b, ub) :: t))).cands.getD
        (pre.length + 1 + mid.length) default = b := by
      simp only [Env.ofPairs, List.map_append, List.map_cons]
      exact getD_at2 _ _ _ _ _ _ _ (by simp)
    rw [hb, absorb_iterate keep pre mid t a b u ub idx _ hidx rfl]
    have e1 : pre ++ (grow keep a (List.replicate (hits a0 b) b), u)
        :: (mid ++ (b, ub && decide (hits a0 b = 0)) :: t)
        = pre ++ (grow keep a (List.replicate (hits a0 b) b), u)
        :: ((mid ++ [(b, ub && decide (hits a0 b = 0))]) ++ t) := by simp
    have e2 : pre.length + 1 + mid.length + 1
        = pre.length + 1 + (mid ++ [(b, ub && decide (hits a0 b = 0))]).length := by
      simp
      omega
    rw [e1, e2, ih pre _ _ u idx hidx, grow_grow]
    simp [relatedOf, mark]

/-- Closed form of one `condition` call on a paired vector split at `idx`. -/
theorem condition_pairs (d : Distiller) (keep : Bool) (pre rest : List (Candidate × Bool))
    (a : Candidate) (u : Bool) :
    d.condition keep (pre ++ (a, u) :: rest).length (Env.ofPairs (pre ++ (a, u) :: rest))
        pre.length
      = Env.ofPairs (pre ++ (grow keep a (relatedOf d.hits a rest), u) :: mark d.hits a rest) := by
  rw [condition_eq_fold]
  have ha : (Env.ofPairs (pre ++ (a, u) :: rest)).cands.getD pre.length default = a := by
    simp only [Env.ofPairs, List.map_append, List.map_cons]
    exact getD_at _ _ _ _ _ (by simp)
  have hn : (pre ++ (a, u) :: rest).length - (pre.length + 1) = rest.length := by
    simp
    omega
  rw [ha, hn]
  have := fold_pairs d.hits keep a rest pre [] a u pre.length rfl
  simpa using this

/-! ## The sweep -/

theorem sweep_eq (condition : Env → ℕ → Env) (size : ℕ) (st : Env) (start count : ℕ) :
    sweep condition size st start count =
      match (List.range' start (size - start)).find? (fun ii => st.unique.getD ii false) with
      | none => (st, count)
      | some idx => sweep condition size (condition st idx) (idx + 1) (count + 1) := by
  rw [sweep]
  split <;> rename_i h <;> rw [h]

theorem sweepSpec_nil (hits : Candidate → Candidate → ℕ) (keep : Bool) :
    sweepSpec hits keep [] = [] := by
  rw [sweepSpec]

theorem sweepSpec_true (hits : Candidate → Candidate → ℕ) (keep : Bool) (a : Candidate)
    (rest : List (Candidate × Bool)) :
    sweepSpec hits keep ((a, true) :: rest)
      = (grow keep a (relatedOf hits a rest), true) :: sweepSpec hits keep (mark hits a rest) := by
  rw [sweepSpec]
  simp

theorem sweepSpec_false (hits : Candidate → Candidate → ℕ) (keep : Bool) (a : Candidate)
    (rest : List (Candidate × Bool)) :
    sweepSpec hits keep ((a, false) :: rest) = (a, false) :: sweepSpec hits keep rest := by
  rw [sweepSpec]
  simp

theorem mark_length (hits : Candidate → Candidate → ℕ) (a : Candidate)
    (rest : List (Candidate × Bool)) : (mark hits a rest).length = rest.length := by
  simp [mark]

theorem sweep_pairs (d : Distiller) (keep : Bool) :
    ∀ (n : ℕ) (l pre : List (Candidate × Bool)) (size count : ℕ), l.length = n →
      size = (pre ++ l).length →
      sweep (d.condition keep size) size (Env.ofPairs (pre ++ l)) pre.length count
        = (Env.ofPairs (pre ++ sweepSpec d.hits keep l),
            count + (sweepSpec d.hits keep l).countP Prod.snd) := by
  intro n
  induction n with
  | zero =>
    intro l pre size count hl hsize
    have : l = [] := List.length_eq_zero.mp hl
    subst this
    rw [sweep_eq]
    simp [hsize, sweepSpec_nil]
  | succ n ih =>
    intro l pre size count hl hsize
    match l, hl with
    | (a, false) :: rest, hl =>
      have hrest : rest.length = n := by simpa using hl
      have hsz : size - pre.length = rest.length + 1 := by
        simp [hsize]
      have hu : (Env.ofPairs (pre ++ (a, false) :: rest)).unique.getD pre.length false
          = false := by
        simp only [Env.ofPairs, List.map_append, List.map_cons]
        exact getD_at _ _ _ _ _ (by simp)
      have e : pre ++ (a, false) :: rest = (pre ++ [(a, false)]) ++ rest := by simp
      have hs' : size = ((pre ++ [(a, false)]) ++ rest).length := by rw [← e]; exact hsize
      have h2 := ih rest (pre ++ [(a, false)]) size count hrest hs'
      rw [sweep_eq] at h2 ⊢
      rw [hsz, List.range'_succ, List.find?_cons, hu]
      have hsz2 : size - (pre ++ [(a, false)]).length = rest.length := by
        simp [hsize]
        omega
      rw [hsz2, ← e] at h2
      have hl2 : (pre ++ [(a, false)]).length = pre.length + 1 := by simp
      rw [hl2] at h2
      simp only [h2, sweepSpec_false]
      simp
    | (a, true) :: rest, hl =>
      have hrest : rest.length = n := by simpa using hl
      have hsz : size - pre.length = rest.length + 1 := by
        simp [hsize]
      have hu : (Env.ofPairs (pre ++ (a, true) :: rest)).unique.getD pre.length false
          = true := by
        simp only [Env.ofPairs, List.map_append, List.map_cons]
        exact getD_at _ _ _ _ _ (by simp)
      rw [sweep_eq, hsz, List.range'_succ, List.find?_cons, hu]
      simp only []
      have hc := condition_pairs d keep pre rest a true
      rw [← hsize] at hc
      rw [hc]
      have e : pre ++ (grow keep a (relatedOf d.hits a rest), true) :: mark d.hits a rest
          = (pre ++ [(grow keep a (relatedOf d.hits a rest), true)]) ++ mark d.hits a rest := by
        simp
      have hs' : size = ((pre ++ [(grow keep a (relatedOf d.hits a rest), true)])
          ++ mark d.hits a rest).length := by
        simp [hsize, mark_length]
      have h2 := ih (mark d.hits a rest) (pre ++ [(grow keep a (relatedOf d.hits a rest), true)])
        size (count + 1) (by rw [mark_length]; exact hrest) hs'
      have hl2 : (pre ++ [(grow keep a (relatedOf d.hits a rest), true)]).length
          = pre.length + 1 := by simp
      rw [hl2, ← e] at h2
      rw [h2, sweepSpec_true]
      simp
      omega

theorem sweepSpec_length (hits : Candidate → Candidate → ℕ) (keep : Bool) :
    ∀ (n : ℕ) (l : List (Candidate × Bool)), l.length = n →
      (sweepSpec hits keep l).length = l.length := by
  intro n
  induction n with
  | zero =>
    intro l hl
    have : l = [] := List.length_eq_zero.mp hl
    subst this
    simp [sweepSpec_nil]
  | succ n ih =>
    intro l hl
    match l, hl with
    | (a, false) :: rest, hl =>
      rw [sweepSpec_false, List.length_cons, ih rest (by simpa using hl), List.length_cons]
    | (a, true) :: rest, hl =>
      rw [sweepSpec_true, List.length_cons,
        ih (mark hits a rest) (by rw [mark_length]; simpa using hl), mark_length,
        List.length_cons]

theorem collect_pairs (rest : List (Candidate × Bool)) :
    ∀ (pre : List (Candidate × Bool)) (acc : List Candidate),
      (List.range' pre.length rest.length).foldl (fun acc ii =>
        if (Env.ofPairs (pre ++ rest)).unique.getD ii false
        then acc ++ [(Env.ofPairs (pre ++ rest)).cands.getD ii default] else acc) acc
      = acc ++ (rest.filter Prod.snd).map Prod.fst := by
  induction rest with
  | nil => intro pre acc; simp
  | cons p t ih =>
    intro pre acc
    obtain ⟨b, ub⟩ := p
    have e : pre ++ (b, ub) :: t = (pre ++ [(b, ub)]) ++ t := by simp
    have hu : (Env.ofPairs (pre ++ (b, ub) :: t)).unique.getD pre.length false = ub := by
      simp only [Env.ofPairs, List.map_append, List.map_cons]
      exact getD_at _ _ _ _ _ (by simp)
    have hc : (Env.ofPairs (pre ++ (b, ub) :: t)).cands.getD pre.length default = b := by
      simp only [Env.ofPairs, List.map_append, List.map_cons]
      exact getD_at _ _ _ _ _ (by simp)
    have hl : pre.length + 1 = (pre ++ [(b, ub)]).length := by simp
    rw [List.length_cons, List.range'_succ, List.foldl_cons, hu, hc, e, hl, ih]
    cases ub <;> simp

/-- The method `distill` computes the recursive sweep on the sorted vector paired with an
all-true mask; the returned vector is the still unique part of it. -/
theorem distill_eq (S : StdSort) (d : Distiller) (keep : Bool) (cands : List Candidate) :
    distill S d keep cands =
      { cands := (sweepSpec d.hits keep ((S.sort cands).map (fun c => (c, true)))).map Prod.fst
        unique := (sweepSpec d.hits keep ((S.sort cands).map (fun c => (c, true)))).map Prod.snd
        count := (sweepSpec d.hits keep ((S.sort cands).map (fun c => (c, true)))).countP Prod.snd
        new_cands := ((sweepSpec d.hits keep ((S.sort cands).map (fun c => (c, true)))).filter
          Prod.snd).map Prod.fst } := by
  have hlen : (S.sort cands).length = cands.length := (S.perm cands).length_eq
  have hst : (⟨S.sort cands, List.replicate cands.length true⟩ : Env)
      = Env.ofPairs ([] ++ (S.sort cands).map (fun c => (c, true))) := by
    simp only [Env.ofPairs, List.nil_append, List.map_map]
    congr 1
    · exact (List.map_id _).symm
    · rw [← hlen]
      symm
      rw [List.eq_replicate_iff]
      simp
  have hsw := sweep_pairs d keep _ ((S.sort cands).map (fun c => (c, true))) [] cands.length 0
    rfl (by simp [hlen])
  have hfl := sweepSpec_length d.hits keep _ ((S.sort cands).map (fun c => (c, true))) rfl
  have hcol := collect_pairs (sweepSpec d.hits keep ((S.sort cands).map (fun c => (c, true))))
    [] []
  rw [hfl, List.length_map, hlen] at hcol
  simp only [distill]
  rw [hst]
  simp only [List.length_nil] at hsw hcol
  rw [hsw, List.range_eq_range']
  simp only [List.nil_append, Nat.zero_add] at hcol ⊢
  rw [hcol]
  simp [Env.ofPairs]

/-! ## Properties of the recursive sweep -/

theorem mark_fst (hits : Candidate → Candidate → ℕ) (a : Candidate)
    (rest : List (Candidate × Bool)) : (mark hits a rest).map Prod.fst = rest.map Prod.fst := by
  simp [mark, Function.comp_def]

theorem mark_all_true (hits : Candidate → Candidate → ℕ) (a : Candidate)
    (rest : List (Candidate × Bool)) :
    (∀ p ∈ mark hits a rest, p.2 = true) ↔
      (∀ p ∈ rest, p.2 = true) ∧ (∀ b ∈ rest.map Prod.fst, hits a b = 0) := by
  induction rest with
  | nil => simp [mark]
  | cons q t ih =>
    simp only [mark, List.map_cons, List.mem_cons, forall_eq_or_imp, Bool.and_eq_true,
      decide_eq_true_eq] at ih ⊢
    rw [ih]
    tauto

theorem filter_length_sweepSpec_le (hits : Candidate → Candidate → ℕ) (keep : Bool)
    (l : List (Candidate × Bool)) :
    ((sweepSpec hits keep l).filter Prod.snd).length ≤ l.length := by
  calc ((sweepSpec hits keep l).filter Prod.snd).length
      ≤ (sweepSpec hits keep l).length := List.length_filter_le _ _
    _ = l.length := sweepSpec_length hits keep _ l rfl

theorem filter_length_sweepSpec_eq_iff (hits : Candidate → Candidate → ℕ) (keep : Bool) :
    ∀ (n : ℕ) (l : List (Candidate × Bool)), l.length = n →
      (((sweepSpec hits keep l).filter Prod.snd).length = l.length ↔
        (∀ p ∈ l, p.2 = true) ∧ (l.map Prod.fst).Pairwise (fun a b => hits a b = 0)) := by
  intro n
  induction n with
  | zero =>
    intro l hl
    have : l = [] := List.length_eq_zero.mp hl
    subst this
    simp [sweepSpec_nil]
  | succ n ih =>
    intro l hl
    match l, hl with
    | (a, false) :: rest, hl =>
      have h1 := filter_length_sweepSpec_le hits keep rest
      rw [sweepSpec_false]
      simp
      omega
    | (a, true) :: rest, hl =>
      have h1 := ih (mark hits a rest) (by rw [mark_length]; simpa using hl)
      rw [mark_length, mark_fst] at h1
      rw [sweepSpec_true]
      rw [mark_all_true] at h1
      simp only [List.filter_cons_of_pos, List.length_cons, Nat.add_right_cancel_iff, h1,
        List.map_cons, List.pairwise_cons, List.mem_cons, forall_eq_or_imp, true_and]
      tauto

theorem sweepSpec_scalars (hits : Candidate → Candidate → ℕ) (keep : Bool) :
    ∀ (n : ℕ) (l : List (Candidate × Bool)), l.length = n →
      (sweepSpec hits keep l).map (fun p => p.1.scalars) = l.map (fun p => p.1.scalars) := by
  intro n
  induction n with
  | zero =>
    intro l hl
    have : l = [] := List.length_eq_zero.mp hl
    subst this
    simp [sweepSpec_nil]
  | succ n ih =>
    intro l hl
    match l, hl with
    | (a, false) :: rest, hl =>
      rw [sweepSpec_false, List.map_cons, ih rest (by simpa using hl), List.map_cons]
    | (a, true) :: rest, hl =>
      rw [sweepSpec_true, List.map_cons, ih (mark hits a rest)
        (by rw [mark_length]; simpa using hl), List.map_cons]
      simp [grow_scalars, mark]

theorem distill_cands_scalars (S : StdSort) (d : Distiller) (keep : Bool)
    (cands : List Candidate) :
    (distill S d keep cands).cands.map Candidate.scalars
      = (S.sort cands).map Candidate.scalars := by
  have h := sweepSpec_scalars d.hits keep _ ((S.sort cands).map (fun c => (c, true))) rfl
  rw [distill_eq]
  simpa [Function.comp_def] using h

theorem snr_of_scalars {a b : Candidate} (h : a.scalars = b.scalars) : a.snr = b.snr :=
  congrArg Prod.fst h

theorem distill_cands_sorted (S : StdSort) (d : Distiller) (keep : Bool)
    (cands : List Candidate) :
    (distill S d keep cands).cands.Pairwise (fun x y => x.snr ≥ y.snr) := by
  have h1 : (S.sort cands).Pairwise (fun x y => x.snr ≥ y.snr) :=
    (S.sorted cands).imp (fun {x y} h => by simpa [snr_less_than] using h)
  have h2 : ((S.sort cands).map Candidate.scalars).Pairwise (fun x y => x.1 ≥ y.1) :=
    List.pairwise_map.mpr h1
  rw [← distill_cands_scalars S d keep cands] at h2
  exact (List.pairwise_map (f := Candidate.scalars) (R := fun x y => x.1 ≥ y.1)).mp h2

theorem distill_new_cands_sublist (S : StdSort) (d : Distiller) (keep : Bool)
    (cands : List Candidate) :
    (distill S d keep cands).new_cands.Sublist (distill S d keep cands).cands := by
  rw [distill_eq]
  exact (List.filter_sublist _).map _

theorem mem_relatedOf {hits : Candidate → Candidate → ℕ} {a c : Candidate}
    {rest : List (Candidate × Bool)} (h : c ∈ relatedOf hits a rest) :
    c ∈ rest.map Prod.fst := by
  simp only [relatedOf, List.mem_flatMap, List.mem_replicate] at h
  obtain ⟨p, hp, _, rfl⟩ := h
  exact List.mem_map_of_mem _ hp

theorem sweepSpec_related_le (hits : Candidate → Candidate → ℕ) (keep : Bool) :
    ∀ (n : ℕ) (l : List (Candidate × Bool)), l.length = n →
      (l.map Prod.fst).Pairwise (fun x y => x.snr ≥ y.snr) →
      (∀ c ∈ l.map Prod.fst, c.related = []) →
      ∀ p ∈ sweepSpec hits keep l, ∀ c ∈ p.1.related, c.snr ≤ p.1.snr := by
  intro n
  induction n with
  | zero =>
    intro l hl _ _
    have : l = [] := List.length_eq_zero.mp hl
    subst this
    simp [sweepSpec_nil]
  | succ n ih =>
    intro l hl hs he
    match l, hl with
    | (a, false) :: rest, hl =>
      rw [sweepSpec_false]
      rw [List.map_cons, List.pairwise_cons] at hs
      intro p hp
      rcases List.mem_cons.mp hp with rfl | hp
      · have : a.related = [] := he a (by simp)
        simp [this]
      · exact ih rest (by simpa using hl) hs.2
          (fun c hc => he c (List.mem_cons_of_mem _ hc)) p hp
    | (a, true) :: rest, hl =>
      rw [sweepSpec_true]
      rw [List.map_cons, List.pairwise_cons] at hs
      intro p hp
      rcases List.mem_cons.mp hp with rfl | hp
      · have ha : a.related = [] := he a (by simp)
        intro c hc
        have hsn : (grow keep a (relatedOf hits a rest)).snr = a.snr :=
          snr_of_scalars (grow_scalars _ _ _)
        rw [hsn]
        cases keep
        · simp [grow, ha] at hc
        · simp only [grow, if_true, ha, List.nil_append] at hc
          exact hs.1 c (mem_relatedOf hc)
      · exact ih (mark hits a rest) (by rw [mark_length]; simpa using hl)
          (by rw [mark_fst]; exact hs.2)
          (by rw [mark_fst]; exact fun c hc => he c (List.mem_cons_of_mem _ hc)) p hp

/-- A vector of strictly decreasing significance is left as it is by every conforming
`std::sort`. -/
theorem sort_eq_of_strict (S : StdSort) (l : List Candidate)
    (h : l.Pairwise (fun x y => x.snr > y.snr)) : S.sort l = l := by
  have hne : ∀ a ∈ l, ∀ b ∈ l, a ≠ b → a.snr ≠ b.snr := by
    intro a ha b hb hab
    exact (h.imp (fun {x y} hxy => ne_of_gt hxy)).forall
      (fun x y hxy => Ne.symm hxy) ha hb hab
  refine List.Perm.eq_of_sorted ?_ (S.sorted l)
    (h.imp (fun {x y} hxy => by simp [snr_less_than, le_of_lt hxy])) (S.perm l)
  intro a b ha hb hab hba
  by_contra hne'
  apply hne a ((S.perm l).mem_iff.mp ha) b hb hne'
  simp only [snr_less_than, decide_eq_false_iff_not, not_lt] at hab hba
  exact le_antisymm hba hab

/-- Position by position, the sweep keeps the scalar fields, only ever extends `related`, and
leaves a candidate whose mask entry ends up cleared exactly as it was. -/
theorem sweepSpec_frame (hits : Candidate → Candidate → ℕ) (keep : Bool) :
    ∀ (n : ℕ) (l : List (Candidate × Bool)), l.length = n →
      List.Forall₂ (fun (p : Candidate × Bool) (c : Candidate) =>
        p.1.scalars = c.scalars ∧ c.related <+: p.1.related ∧ (p.2 = false → p.1 = c))
        (sweepSpec hits keep l) (l.map Prod.fst) := by
  intro n
  induction n with
  | zero =>
    intro l hl
    have : l = [] := List.length_eq_zero.mp hl
    subst this
    simp [sweepSpec_nil]
  | succ n ih =>
    intro l hl
    match l, hl with
    | (a, false) :: rest, hl =>
      rw [sweepSpec_false, List.map_cons]
      exact List.Forall₂.cons ⟨rfl, List.prefix_refl _, fun _ => rfl⟩
        (ih rest (by simpa using hl))
    | (a, true) :: rest, hl =>
      rw [sweepSpec_true, List.map_cons]
      have h := ih (mark hits a rest) (by rw [mark_length]; simpa using hl)
      rw [mark_fst] at h
      refine List.Forall₂.cons ⟨grow_scalars _ _ _, ?_, fun hf => by simp at hf⟩ h
      cases keep
      · simp [grow]
      · simp [grow]

theorem zip_fst_snd {α β : Type} (l : List (α × β)) :
    (l.map Prod.fst).zip (l.map Prod.snd) = l := by
  induction l with
  | nil => rfl
  | cons p t ih => simp [ih]

theorem filter_all_true (out : List Candidate) :
    ((out.map (fun c => (c, true))).filter Prod.snd).map Prod.fst = out := by
  induction out with
  | nil => rfl
  | cons a t ih => simpa using ih

/-- Candidates that are still unique after the sweep were unique before it. -/
theorem sweepSpec_true_origin (hits : Candidate → Candidate → ℕ) (keep : Bool) :
    ∀ (n : ℕ) (l : List (Candidate × Bool)), l.length = n →
      ∀ p ∈ sweepSpec hits keep l, p.2 = true →
        ∃ q ∈ l, q.2 = true ∧ q.1.scalars = p.1.scalars := by
  intro n
  induction n with
  | zero =>
    intro l hl
    have : l = [] := List.length_eq_zero.mp hl
    subst this
    simp [sweepSpec_nil]
  | succ n ih =>
    intro l hl
    match l, hl with
    | (a, false) :: rest, hl =>
      rw [sweepSpec_false]
      intro p hp hp2
      rcases List.mem_cons.mp hp with rfl | hp
      · simp at hp2
      · obtain ⟨q, hq, hq2, hqs⟩ := ih rest (by simpa using hl) p hp hp2
        exact ⟨q, List.mem_cons_of_mem _ hq, hq2, hqs⟩
    | (a, true) :: rest, hl =>
      rw [sweepSpec_true]
      intro p hp hp2
      rcases List.mem_cons.mp hp with rfl | hp
      · exact ⟨(a, true), by simp, rfl, (grow_scalars _ _ _).symm⟩
      · obtain ⟨q, hq, hq2, hqs⟩ :=
          ih (mark hits a rest) (by rw [mark_length]; simpa using hl) p hp hp2
        simp only [mark, List.mem_map] at hq
        obtain ⟨q0, hq0, rfl⟩ := hq
        simp only [Bool.and_eq_true, decide_eq_true_eq] at hq2
        exact ⟨q0, List.mem_cons_of_mem _ hq0, hq2.1, hqs⟩

/-- No candidate returned by the sweep is similar to one returned before it. -/
theorem sweepSpec_output_pairwise (d : Distiller) (keep : Bool) :
    ∀ (n : ℕ) (l : List (Candidate × Bool)), l.length = n →
      (((sweepSpec d.hits keep l).filter Prod.snd).map Prod.fst).Pairwise
        (fun a b => d.hits a b = 0) := by
  intro n
  induction n with
  | zero =>
    intro l hl
    have : l = [] := List.length_eq_zero.mp hl
    subst this
    simp [sweepSpec_nil]
  | succ n ih =>
    intro l hl
    match l, hl with
    | (a, false) :: rest, hl =>
      rw [sweepSpec_false]
      simpa using ih rest (by simpa using hl)
    | (a, true) :: rest, hl =>
      have hm : (mark d.hits a rest).length = n := by rw [mark_length]; simpa using hl
      rw [sweepSpec_true]
      simp only [List.filter_cons_of_pos, List.map_cons, List.pairwise_cons]
      refine ⟨?_, ih _ hm⟩
      intro b hb
      simp only [List.mem_map, List.mem_filter] at hb
      obtain ⟨p, ⟨hp, hp2⟩, rfl⟩ := hb
      obtain ⟨q, hq, hq2, hqs⟩ := sweepSpec_true_origin d.hits keep _ _ hm p hp hp2
      simp only [mark, List.mem_map] at hq
      obtain ⟨q0, _, rfl⟩ := hq
      simp only [Bool.and_eq_true, decide_eq_true_eq] at hq2
      rw [hits_congr d (grow_scalars keep a _) hqs.symm]
      exact hq2.2

/-- On a vector with no similar pair and an all-true mask the sweep changes nothing. -/
theorem sweepSpec_fixed (hits : Candidate → Candidate → ℕ) (keep : Bool)
    (l : List Candidate) (h : l.Pairwise (fun a b => hits a b = 0)) :
    sweepSpec hits keep (l.map (fun c => (c, true))) = l.map (fun c => (c, true)) := by
  induction l with
  | nil => simp [sweepSpec_nil]
  | cons a t ih =>
    rw [List.pairwise_cons] at h
    have hr : relatedOf hits a (t.map (fun c => (c, true))) = [] := by
      simp only [relatedOf, List.flatMap_eq_nil_iff, List.mem_map, forall_exists_index, and_imp]
      rintro _ c hc rfl
      simp [h.1 c hc]
    have hm : mark hits a (t.map (fun c => (c, true))) = t.map (fun c => (c, true)) := by
      simp only [mark, List.map_map]
      apply List.map_congr_left
      intro c hc
      simp [h.1 c hc]
    rw [List.map_cons, sweepSpec_true, hr, hm, grow_nil, ih h.2]

/-! ## One `condition` call on an arbitrary state -/

theorem list_split_at {α : Type} (l : List α) (i : ℕ) (h : i < l.length) :
    ∃ pre x post, l = pre ++ x :: post ∧ pre.length = i := by
  refine ⟨l.take i, l[i], l.drop (i + 1), ?_, ?_⟩
  · rw [← List.drop_eq_getElem_cons h, List.take_append_drop]
  · simp [Nat.min_def]
    omega

theorem env_split (st : Env) (idx ii : ℕ) (hlen : st.unique.length = st.cands.length)
    (h1 : idx < ii) (h2 : ii < st.cands.length) :
    ∃ pre mid post a b u ub,
      st = Env.ofPairs (pre ++ (a, u) :: (mid ++ (b, ub) :: post)) ∧
      idx = pre.length ∧ ii = pre.length + 1 + mid.length := by
  have hz : (st.cands.zip st.unique).length = st.cands.length := by simp [hlen]
  obtain ⟨pre, p, rest, hl, hpre⟩ := list_split_at (st.cands.zip st.unique) idx (by omega)
  have hrest : rest.length = st.cands.length - (idx + 1) := by
    have := congrArg List.length hl
    simp [hz] at this
    omega
  obtain ⟨mid, q, post, hr, hmid⟩ := list_split_at rest (ii - (idx + 1)) (by omega)
  refine ⟨pre, mid, post, p.1, q.1, p.2, q.2, ?_, hpre.symm, by omega⟩
  have hst : st = Env.ofPairs (st.cands.zip st.unique) := by
    cases st
    simp only [Env.ofPairs, Env.mk.injEq]
    simp only at hlen
    exact ⟨(List.map_fst_zip _ _ (by omega)).symm, (List.map_snd_zip _ _ (by omega)).symm⟩
  rw [hst, hl, hr]

/-- The effect of one `condition` call on a later index `ii`: its mask entry is cleared exactly
when the test passes for it, and then, with `keep_related` set, the candidate there is among
the representative's related ones. -/
theorem condition_effect (d : Distiller) (keep : Bool) (st : Env) (idx ii : ℕ)
    (hlen : st.unique.length = st.cands.length) (h1 : idx < ii) (h2 : ii < st.cands.length)
    (dflt : Bool) :
    (d.condition keep st.cands.length st idx).unique.getD ii dflt
        = (st.unique.getD ii dflt
            && decide (d.hits (st.cands.getD idx default) (st.cands.getD ii default) = 0)) ∧
      (keep = true → 0 < d.hits (st.cands.getD idx default) (st.cands.getD ii default) →
        st.cands.getD ii default
          ∈ ((d.condition keep st.cands.length st idx).cands.getD idx default).related) := by
  obtain ⟨pre, mid, post, a, b, u, ub, rfl, rfl, rfl⟩ := env_split st idx ii hlen h1 h2
  have hc := condition_pairs d keep pre (mid ++ (b, ub) :: post) a u
  have hsize : (Env.ofPairs (pre ++ (a, u) :: (mid ++ (b, ub) :: post))).cands.length
      = (pre ++ (a, u) :: (mid ++ (b, ub) :: post)).length := by
    simp [Env.ofPairs]
  rw [hsize, hc]
  have ha : (Env.ofPairs (pre ++ (a, u) :: (mid ++ (b, ub) :: post))).cands.getD pre.length
      default = a := by
    simp only [Env.ofPairs, List.map_append, List.map_cons]
    exact getD_at _ _ _ _ _ (by simp)
  have hb : (Env.ofPairs (pre ++ (a, u) :: (mid ++ (b, ub) :: post))).cands.getD
      (pre.length + 1 + mid.length) default = b := by
    simp only [Env.ofPairs, List.map_append, List.map_cons]
    exact getD_at2 _ _ _ _ _ _ _ (by simp)
  have hu : (Env.ofPairs (pre ++ (a, u) :: (mid ++ (b, ub) :: post))).unique.getD
      (pre.length + 1 + mid.length) dflt = ub := by
    simp only [Env.ofPairs, List.map_append, List.map_cons]
    exact getD_at2 _ _ _ _ _ _ _ (by simp)
  rw [ha, hb, hu]
  constructor
  · simp only [Env.ofPairs, mark, List.map_append, List.map_cons]
    exact getD_at2 _ _ _ _ _ _ _ (by simp)
  · intro hk hpos
    have ha' : (Env.ofPairs (pre ++ (grow keep a (relatedOf d.hits a (mid ++ (b, ub) :: post)), u)
        :: mark d.hits a (mid ++ (b, ub) :: post))).cands.getD pre.length default
        = grow keep a (relatedOf d.hits a (mid ++ (b, ub) :: post)) := by
      simp only [Env.ofPairs, List.map_append, List.map_cons]
      exact getD_at _ _ _ _ _ (by simp)
    rw [ha', hk]
    simp only [grow, if_true, relatedOf, List.mem_append, List.mem_flatMap, List.mem_replicate]
    exact Or.inr ⟨(b, ub), by simp, Nat.pos_iff_ne_zero.mp hpos, rfl⟩

/-- Without `keep` the sweep leaves every candidate as it is. -/
theorem sweepSpec_false_fst (hits : Candidate → Candidate → ℕ) :
    ∀ (n : ℕ) (l : List (Candidate × Bool)), l.length = n →
      (sweepSpec hits false l).map Prod.fst = l.map Prod.fst := by
  intro n
  induction n with
  | zero =>
    intro l hl
    have : l = [] := List.length_eq_zero.mp hl
    subst this
    simp [sweepSpec_nil]
  | succ n ih =>
    intro l hl
    match l, hl with
    | (a, false) :: rest, hl =>
      rw [sweepSpec_false, List.map_cons, List.map_cons, ih rest (by simpa using hl)]
    | (a, true) :: rest, hl =>
      rw [sweepSpec_true, List.map_cons, List.map_cons,
        ih (mark hits a rest) (by rw [mark_length]; simpa using hl), mark_fst]
      simp [grow]

/-! ## The `std::sort` of libstdc++ on a tie -/

theorem snr_less_than_tie (f g : ℚ) : snr_less_than (mkCand 5 f) (mkCand 5 g) = false := by
  simp [snr_less_than, mkCand]

theorem gnu_sort_tieInput : gnuStdSort.sort tieInput = tieOnce := by
  have h17 : Nat.log2 17 = 4 := by simp [Nat.log2]
  simp [gnuStdSort, GnuSort.sort, tieInput, tieOnce, h17, GnuSort.introsort_loop,
    GnuSort.unguarded_partition_pivot, GnuSort.move_median_to_first, GnuSort.compAt,
    GnuSort.iter_swap, GnuSort.unguarded_partition, GnuSort.scanUp, GnuSort.scanDown,
    snr_less_than_tie, List.insertionSort, List.orderedInsert]

theorem gnu_sort_tieOnce : gnuStdSort.sort tieOnce = tieResorted := by
  have h17 : Nat.log2 17 = 4 := by simp [Nat.log2]
  simp [gnuStdSort, GnuSort.sort, tieOnce, tieResorted, h17, GnuSort.introsort_loop,
    GnuSort.unguarded_partition_pivot, GnuSort.move_median_to_first, GnuSort.compAt,
    GnuSort.iter_swap, GnuSort.unguarded_partition, GnuSort.scanUp, GnuSort.scanDown,
    snr_less_than_tie, List.insertionSort, List.orderedInsert]

/-- Without `keep_related` the vector `distill` leaves behind is the sorted one. -/
theorem distill_false_cands (S : StdSort) (d : Distiller) (cands : List Candidate) :
    (distill S d false cands).cands = S.sort cands := by
  have hf := sweepSpec_false_fst d.hits _ ((S.sort cands).map (fun c => (c, true))) rfl
  rw [List.map_map] at hf
  simp only [Function.comp_def, List.map_id'] at hf
  rw [distill_eq]
  exact hf


/-! ## The claims -/

/-- C1 (idempotence), as amended: whenever `std::sort` leaves the vector returned by a first
`distill` in its order (as every conforming sort does when the significances are pairwise
distinct, and a stable one always), a second `distill` with the same variant and
configuration returns that vector unchanged, every index is a representative, and the vector
passed in is left as it was: nothing is absorbed. -/
theorem distill_idempotent_of_sort_fixed (S : StdSort) (d : Distiller) (keep_related : Bool)
    (cands : List Candidate)
    (hfix : S.sort (distill S d keep_related cands).new_cands
      = (distill S d keep_related cands).new_cands) :
    (distill S d keep_related (distill S d keep_related cands).new_cands).new_cands
        = (distill S d keep_related cands).new_cands ∧
      (distill S d keep_related (distill S d keep_related cands).new_cands).cands
        = (distill S d keep_related cands).new_cands ∧
      (distill S d keep_related (distill S d keep_related cands).new_cands).count
        = (distill S d keep_related cands).new_cands.length := by
  have hpw : (distill S d keep_related cands).new_cands.Pairwise
      (fun a b => d.hits a b = 0) := by
    rw [distill_eq]
    exact sweepSpec_output_pairwise d keep_related _ _ rfl
  have hsw := sweepSpec_fixed d.hits keep_related _ hpw
  generalize (distill S d keep_related cands).new_cands = out at hfix hsw
  rw [distill_eq, hfix, hsw]
  simp [Function.comp_def, filter_all_true]

/-- Witness for C1 (amended) on the three candidates of the DM scenario, whose significances
are pairwise distinct. -/
theorem distill_idempotent_of_sort_fixed_witness :
    (distill insertionStdSort (Distiller.dm 0.01) true
        (distill insertionStdSort (Distiller.dm 0.01) true dmInput).new_cands).new_cands
        = (distill insertionStdSort (Distiller.dm 0.01) true dmInput).new_cands ∧
      (distill insertionStdSort (Distiller.dm 0.01) true
        (distill insertionStdSort (Distiller.dm 0.01) true dmInput).new_cands).cands
        = (distill insertionStdSort (Distiller.dm 0.01) true dmInput).new_cands ∧
      (distill insertionStdSort (Distiller.dm 0.01) true
        (distill insertionStdSort (Distiller.dm 0.01) true dmInput).new_cands).count
        = (distill insertionStdSort (Distiller.dm 0.01) true dmInput).new_cands.length :=
  distill_idempotent_of_sort_fixed insertionStdSort (Distiller.dm 0.01) true dmInput
    (sort_eq_of_strict _ _ (by
      have hs : insertionStdSort.sort dmInput = dmInput :=
        sort_eq_of_strict _ dmInput (by simp [dmInput, mkCand]; norm_num)
      rw [distill_eq, hs]
      norm_num [dmInput, sweepSpec_true, sweepSpec_false, sweepSpec_nil, mark, relatedOf, grow,
        Distiller.hits, mkCand]))

/-- C1 (idempotence), counterexample: with the `std::sort` of libstdc++ and the DM distiller
at tolerance 0.1, the seventeen candidates of `tieInput`, all of significance 5, all survive a
first `distill`, which returns them with the 905 Hz candidate ahead of the 1000 Hz one; the
second `distill` sorts the tie again, now with the 1000 Hz candidate ahead, and absorbs the
905 Hz candidate: sixteen candidates are returned. -/
theorem distill_idempotent_counterexample :
    (distill gnuStdSort (Distiller.dm 0.1) false tieInput).new_cands = tieOnce ∧
      (distill gnuStdSort (Distiller.dm 0.1) false
        (distill gnuStdSort (Distiller.dm 0.1) false tieInput).new_cands).new_cands
        = tieTwice ∧
      tieTwice ≠ tieOnce := by
  have h1 : (distill gnuStdSort (Distiller.dm 0.1) false tieInput).new_cands = tieOnce := by
    rw [distill_eq, gnu_sort_tieInput]
    norm_num [tieOnce, sweepSpec_true, sweepSpec_false, sweepSpec_nil, mark, relatedOf, grow,
      Distiller.hits, mkCand]
  refine ⟨h1, ?_, ?_⟩
  · rw [h1, distill_eq, gnu_sort_tieOnce]
    norm_num [tieResorted, tieTwice, sweepSpec_true, sweepSpec_false, sweepSpec_nil, mark,
      relatedOf, grow, Distiller.hits, mkCand]
  · intro h
    have := congrArg List.length h
    simp [tieTwice, tieOnce] at this

/-- C2 (monotonic shrink): the vector returned by `distill` is no longer than the input, and
it has the same length exactly when no candidate of the sorted vector is similar, under the
active predicate, to a candidate standing before it. -/
theorem distill_length_le_and_eq_iff (S : StdSort) (d : Distiller) (keep_related : Bool)
    (cands : List Candidate) :
    (distill S d keep_related cands).new_cands.length ≤ cands.length ∧
      ((distill S d keep_related cands).new_cands.length = cands.length ↔
        (S.sort cands).Pairwise (fun a b => d.similar a b = false)) := by
  have hlen : (S.sort cands).length = cands.length := (S.perm cands).length_eq
  have hle := filter_length_sweepSpec_le d.hits keep_related
    ((S.sort cands).map (fun c => (c, true)))
  have hiff := filter_length_sweepSpec_eq_iff d.hits keep_related _
    ((S.sort cands).map (fun c => (c, true))) rfl
  rw [distill_eq]
  simp only [List.length_map, hlen] at hle hiff ⊢
  refine ⟨hle, hiff.trans ?_⟩
  simp [Distiller.similar, Function.comp_def]

/-- C3 (significance ordering preserved): the vector returned by `distill` is sorted by
non-increasing significance and is a subsequence of the input vector as the call leaves it. -/
theorem distill_output_sorted_sublist (S : StdSort) (d : Distiller) (keep_related : Bool)
    (cands : List Candidate) :
    (distill S d keep_related cands).new_cands.Pairwise (fun x y => x.snr ≥ y.snr) ∧
      (distill S d keep_related cands).new_cands.Sublist
        (distill S d keep_related cands).cands :=
  ⟨(distill_cands_sorted S d keep_related cands).sublist
      (distill_new_cands_sublist S d keep_related cands),
    distill_new_cands_sublist S d keep_related cands⟩

/-- C4 (representative dominance): with `keep_related` set and an input whose candidates all
start with an empty `related` sequence, every candidate recorded in the `related` sequence of
a returned candidate has a significance no greater than that returned candidate's. -/
theorem related_snr_le_representative (S : StdSort) (d : Distiller) (cands : List Candidate)
    (hempty : ∀ c ∈ cands, c.related = []) :
    ∀ r ∈ (distill S d true cands).new_cands, ∀ c ∈ r.related, c.snr ≤ r.snr := by
  have hs : (((S.sort cands).map (fun c => (c, true))).map Prod.fst).Pairwise
      (fun x y => x.snr ≥ y.snr) := by
    rw [List.map_map]
    simp only [Function.comp_def, List.map_id']
    exact (S.sorted cands).imp (fun {x y} h => by simpa [snr_less_than] using h)
  have he : ∀ c ∈ ((S.sort cands).map (fun c => (c, true))).map Prod.fst, c.related = [] := by
    rw [List.map_map]
    simp only [Function.comp_def, List.map_id']
    exact fun c hc => hempty c ((S.perm cands).mem_iff.mp hc)
  have h := sweepSpec_related_le d.hits true _ _ rfl hs he
  intro r hr
  rw [distill_eq] at hr
  simp only [List.mem_map, List.mem_filter] at hr
  obtain ⟨p, ⟨hp, _⟩, rfl⟩ := hr
  exact h p hp

/-- Witness for C4 on the three candidates of the DM scenario. -/
theorem related_snr_le_representative_witness :
    (∀ c ∈ dmInput, c.related = []) ∧
      (∀ r ∈ (distill insertionStdSort (Distiller.dm 0.01) true dmInput).new_cands,
        ∀ c ∈ r.related, c.snr ≤ r.snr) :=
  ⟨by simp [dmInput, mkCand],
    related_snr_le_representative insertionStdSort (Distiller.dm 0.01) dmInput
      (by simp [dmInput, mkCand])⟩

/-- C5 (DM scenario): the DM distiller at tolerance 0.01 with `keep_related` set, run on the
candidates of significance 10, 8, 5 and frequency 100.0, 100.0005, 300.0, returns exactly the
significance-10 candidate, holding the significance-8 candidate as its only related one,
followed by the significance-5 candidate with nothing related. -/
theorem dm_scenario (S : StdSort) :
    (distill S (Distiller.dm 0.01) true dmInput).new_cands
      = [{ mkCand 10 100 with related := [mkCand 8 100.0005] }, mkCand 5 300] := by
  have hs : S.sort dmInput = dmInput :=
    sort_eq_of_strict S dmInput (by simp [dmInput, mkCand]; norm_num)
  rw [distill_eq, hs]
  norm_num [dmInput, sweepSpec_true, sweepSpec_false, sweepSpec_nil, mark, relatedOf, grow,
    Distiller.hits, mkCand]

/-- C6 (harmonic scenario): the harmonic distiller with `max_harm = 4`, no fractional
harmonics and tolerance 0.001, run on the candidates (50.0 Hz, 20), (100.0 Hz, 15) and
(150.3 Hz, 12), absorbs the 100.0 Hz candidate and keeps the 150.3 Hz one: it returns the
50.0 Hz candidate (holding the 100.0 Hz one as related when `keep_related` is set) followed by
the 150.3 Hz candidate. -/
theorem harmonic_scenario (S : StdSort) (keep_related : Bool) :
    (distill S (Distiller.harmonic 0.001 4 false) keep_related harmonicInput).new_cands
      = [{ mkCand 20 50 with related := if keep_related then [mkCand 15 100] else [] },
          mkCand 12 150.3] := by
  have hs : S.sort harmonicInput = harmonicInput :=
    sort_eq_of_strict S harmonicInput (by simp [harmonicInput, mkCand]; norm_num)
  have h4 : ⌊(4 : ℚ)⌋₊ = 4 := Nat.floor_ofNat 4
  rw [distill_eq, hs]
  cases keep_related <;>
    norm_num [harmonicInput, sweepSpec_true, sweepSpec_false, sweepSpec_nil, mark, relatedOf,
      grow, Distiller.hits, mkCand, h4, List.range', List.countP_cons]

/-- C7 (polynomial template-bank scenario): with all three tolerances `0` (so that each edge
is the floor `1e-8`), one `condition` call for a representative at `idx` clears the mask of a
later candidate with the same frequency, acceleration and jerk (and records it as related when
`keep_related` is set), and leaves the mask of a later candidate with the same frequency and
acceleration whose jerk is off by `1e-8` or more, in particular by exactly `1e-8`, as it was:
the comparison with the floor is strict. -/
theorem polynomial_zero_tolerance (keep_related : Bool) (st : Env) (idx ii : ℕ)
    (hlen : st.unique.length = st.cands.length) (h1 : idx < ii) (h2 : ii < st.cands.length)
    (hfreq : (st.cands.getD ii default).freq = (st.cands.getD idx default).freq)
    (hacc : (st.cands.getD ii default).acc = (st.cands.getD idx default).acc) :
    ((st.cands.getD ii default).jerk = (st.cands.getD idx default).jerk →
      (Template_Bank_Polynomial_Distiller.condition 0 0 0 keep_related st.cands.length st
          idx).unique.getD ii true = false ∧
        (keep_related = true → st.cands.getD ii default ∈
          ((Template_Bank_Polynomial_Distiller.condition 0 0 0 keep_related st.cands.length st
            idx).cands.getD idx default).related)) ∧
    (1e-8 ≤ |(st.cands.getD ii default).jerk - (st.cands.getD idx default).jerk| →
      (Template_Bank_Polynomial_Distiller.condition 0 0 0 keep_related st.cands.length st
          idx).unique.getD ii true = st.unique.getD ii true) := by
  have he := condition_effect (Distiller.polynomial 0 0 0) keep_related st idx ii hlen h1 h2 true
  simp only [Distiller.condition] at he
  constructor
  · intro hjerk
    have hh : (Distiller.polynomial 0 0 0).hits (st.cands.getD idx default)
        (st.cands.getD ii default) = 1 := by
      simp only [Distiller.hits, hfreq, hacc, hjerk]
      norm_num
    rw [hh] at he
    exact ⟨by simpa using he.1, fun hk => he.2 hk Nat.one_pos⟩
  · intro hjerk
    have hh : (Distiller.polynomial 0 0 0).hits (st.cands.getD idx default)
        (st.cands.getD ii default) = 0 := by
      simp only [Distiller.hits]
      rw [if_neg]
      rintro ⟨_, _, h3⟩
      rw [mul_zero, zero_add] at h3
      exact absurd hjerk (not_le.mpr h3)
    rw [hh] at he
    simpa using he.1

/-- Witness for C7 on a three-candidate state: index 1 repeats index 0, the jerk of index 2 is
off by `2⁻²⁶`. -/
theorem polynomial_zero_tolerance_witness :
    ((Template_Bank_Polynomial_Distiller.condition 0 0 0 true polyEnv.cands.length polyEnv
        0).unique.getD 1 true = false ∧
      (true = true → polyEnv.cands.getD 1 default ∈
        ((Template_Bank_Polynomial_Distiller.condition 0 0 0 true polyEnv.cands.length polyEnv
          0).cands.getD 0 default).related)) ∧
    (Template_Bank_Polynomial_Distiller.condition 0 0 0 true polyEnv.cands.length polyEnv
        0).unique.getD 2 true = polyEnv.unique.getD 2 true :=
  ⟨(polynomial_zero_tolerance true polyEnv 0 1 rfl (by decide) (by decide) rfl rfl).1 rfl,
    (polynomial_zero_tolerance true polyEnv 0 2 rfl (by decide) (by decide) rfl rfl).2
      (by
        simp only [polyEnv, List.getD_cons_succ, List.getD_cons_zero, sub_zero]
        rw [abs_of_pos (by norm_num)]
        norm_num)⟩

/-- C9 (frame): `distill` leaves behind a rearrangement of the original vector, namely the
vector as sorted, in which position by position the scalar fields are those of the sorted
candidate, `related` has only been appended to, and a candidate whose mask entry is cleared,
that is one absent from the returned vector, is exactly as it was; the returned vector holds
the candidates whose mask entry is still set. -/
theorem distill_frame (S : StdSort) (d : Distiller) (keep_related : Bool)
    (cands : List Candidate) :
    (S.sort cands).Perm cands ∧
      List.Forall₂ (fun (p : Candidate × Bool) (c : Candidate) =>
          p.1.scalars = c.scalars ∧ c.related <+: p.1.related ∧ (p.2 = false → p.1 = c))
        ((distill S d keep_related cands).cands.zip (distill S d keep_related cands).unique)
        (S.sort cands) ∧
      (distill S d keep_related cands).new_cands
        = (((distill S d keep_related cands).cands.zip
            (distill S d keep_related cands).unique).filter Prod.snd).map Prod.fst := by
  have h := sweepSpec_frame d.hits keep_related _ ((S.sort cands).map (fun c => (c, true))) rfl
  rw [List.map_map] at h
  simp only [Function.comp_def, List.map_id'] at h
  rw [distill_eq]
  simp only [zip_fst_snd]
  exact ⟨S.perm cands, h, trivial⟩

/-- C10 (sort), as amended: after `distill` the input vector is ordered by non-increasing
significance, and its order is exactly the one `std::sort` produced from the original vector
(a rearrangement of it); nothing is promised about the relative order of candidates of equal
significance. -/
theorem distill_cands_sorted_as_std_sort (S : StdSort) (d : Distiller) (keep_related : Bool)
    (cands : List Candidate) :
    (distill S d keep_related cands).cands.Pairwise (fun x y => x.snr ≥ y.snr) ∧
      (distill S d keep_related cands).cands.map Candidate.scalars
        = (S.sort cands).map Candidate.scalars ∧
      (S.sort cands).Perm cands :=
  ⟨distill_cands_sorted S d keep_related cands, distill_cands_scalars S d keep_related cands,
    S.perm cands⟩

/-- C10 (stable sort), counterexample: with the `std::sort` of libstdc++, `distill` leaves the
seventeen candidates of `tieInput`, all of significance 5, in the order `tieOnce`: the 905 Hz
candidate, ninth in the input, stands first, and the 1 Hz candidate, first in the input,
stands tenth. -/
theorem stable_sort_counterexample :
    tieInput.map Candidate.snr = List.replicate 17 5 ∧
      (distill gnuStdSort (Distiller.dm 0.1) false tieInput).cands = tieOnce ∧
      tieOnce ≠ tieInput := by
  refine ⟨by simp [tieInput, mkCand, List.replicate], ?_, ?_⟩
  · rw [distill_false_cands, gnu_sort_tieInput]
  · intro h
    have := congrArg (fun l => (l.map Candidate.freq).head?) h
    norm_num [tieOnce, tieInput, mkCand] at this

/-! ## Further properties of the recursive sweep -/

/-- The mask and the scalar fields the sweep ends with do not depend on `keep`. -/
theorem sweepSpec_keep_irrelevant (hits : Candidate → Candidate → ℕ) (k1 k2 : Bool) :
    ∀ (n : ℕ) (l : List (Candidate × Bool)), l.length = n →
      (sweepSpec hits k1 l).map (fun p => (p.1.scalars, p.2))
        = (sweepSpec hits k2 l).map (fun p => (p.1.scalars, p.2)) := by
  intro n
  induction n with
  | zero =>
    intro l hl
    have : l = [] := List.length_eq_zero.mp hl
    subst this
    simp [sweepSpec_nil]
  | succ n ih =>
    intro l hl
    match l, hl with
    | (a, false) :: rest, hl =>
      rw [sweepSpec_false, sweepSpec_false, List.map_cons, List.map_cons,
        ih rest (by simpa using hl)]
    | (a, true) :: rest, hl =>
      rw [sweepSpec_true, sweepSpec_true, List.map_cons, List.map_cons,
        ih (mark hits a rest) (by rw [mark_length]; simpa using hl)]
      simp [grow_scalars]

theorem filter_map_scalars (fin : List (Candidate × Bool)) :
    ((fin.filter Prod.snd).map Prod.fst).map Candidate.scalars
      = ((fin.map (fun p => (p.1.scalars, p.2))).filter Prod.snd).map Prod.fst := by
  induction fin with
  | nil => rfl
  | cons p t ih =>
    obtain ⟨c, u⟩ := p
    cases u <;> simpa using ih

/-- The harmonic test with `max_harm = 1` and no fractional harmonics is the DM test. -/
theorem hits_harmonic_one (tol : ℚ) :
    (Distiller.harmonic tol 1 false).hits = (Distiller.dm tol).hits := by
  funext a b
  have h1 : ⌊(1 : ℚ)⌋₊ = 1 := Nat.floor_one
  simp [Distiller.hits, h1, List.range', List.countP_cons]

/-- Two distillers whose tests pass equally often everywhere give the same `distill`. -/
theorem distill_congr_hits (S : StdSort) (d d' : Distiller) (keep : Bool)
    (cands : List Candidate) (h : d.hits = d'.hits) :
    distill S d keep cands = distill S d' keep cands := by
  rw [distill_eq, distill_eq, h]

/-! ## The claims, continued -/

/-- C11 (`keep_related` does not influence which candidates survive): `distill` without and
with `keep_related` returns candidates with the same scalar fields in the same order (and ends
with the same mask); without `keep_related` the input vector is left exactly as `std::sort`
produced it, so no `related` sequence is changed, and the returned candidates are taken from
it unchanged. -/
theorem keep_related_irrelevant (S : StdSort) (d : Distiller) (cands : List Candidate) :
    (distill S d false cands).new_cands.map Candidate.scalars
        = (distill S d true cands).new_cands.map Candidate.scalars ∧
      (distill S d false cands).unique = (distill S d true cands).unique ∧
      (distill S d false cands).cands = S.sort cands ∧
      (distill S d false cands).new_cands.Sublist (S.sort cands) := by
  have hk := sweepSpec_keep_irrelevant d.hits false true _
    ((S.sort cands).map (fun c => (c, true))) rfl
  have hf := sweepSpec_false_fst d.hits _ ((S.sort cands).map (fun c => (c, true))) rfl
  rw [List.map_map] at hf
  simp only [Function.comp_def, List.map_id'] at hf
  have hsub := distill_new_cands_sublist S d false cands
  have hc : (distill S d false cands).cands = S.sort cands := by
    rw [distill_eq]
    exact hf
  refine ⟨?_, ?_, hc, hc ▸ hsub⟩
  · rw [distill_eq, distill_eq]
    simp only [filter_map_scalars, hk]
  · rw [distill_eq, distill_eq]
    have := congrArg (List.map Prod.snd) hk
    simpa [Function.comp_def] using this

/-- C12 (the DM distiller is the harmonic distiller restricted to `jj = kk = 1`): for every
tolerance, `keep_related` flag and input, the DM distiller and the harmonic distiller with
`max_harm = 1` and no fractional harmonics leave the same vector behind and return the same
vector, `related` sequences included. -/
theorem dm_eq_harmonic_one (S : StdSort) (tolerance : ℚ) (keep_related : Bool)
    (cands : List Candidate) :
    distill S (Distiller.dm tolerance) keep_related cands
      = distill S (Distiller.harmonic tolerance 1 false) keep_related cands :=
  distill_congr_hits S _ _ keep_related cands (hits_harmonic_one tolerance).symm

/-! ### The similarity tests -/

theorem sum_map_pos_iff {β : Type} (l : List β) (f : β → ℕ) :
    0 < (l.map f).sum ↔ ∃ x ∈ l, 0 < f x := by
  induction l with
  | nil => simp
  | cons x t ih =>
    simp only [List.map_cons, List.sum_cons, List.mem_cons, exists_eq_or_imp, ← ih]
    omega

/-- The harmonic test passes at least once exactly when some pair `(jj, kk)` in range puts
the ratio strictly inside the tolerance window. -/
theorem hits_harmonic_pos_iff (tol mh : ℚ) (fh : Bool) (a b : Candidate) :
    0 < (Distiller.harmonic tol mh fh).hits a b ↔
      ∃ jj kk : ℕ, 1 ≤ jj ∧ (jj : ℚ) ≤ mh ∧ 1 ≤ kk ∧ kk ≤ (if fh then 2 ^ b.nh else 1) ∧
        1 - tol < (kk : ℚ) * b.freq / ((jj : ℚ) * a.freq) ∧
        (kk : ℚ) * b.freq / ((jj : ℚ) * a.freq) < 1 + tol := by
  simp only [Distiller.hits, sum_map_pos_iff, List.countP_pos_iff, List.mem_range'_1,
    decide_eq_true_eq, gt_iff_lt]
  constructor
  · rintro ⟨jj, ⟨hj1, hj2⟩, kk, ⟨hk1, hk2⟩, hlo, hhi⟩
    refine ⟨jj, kk, hj1, ?_, hk1, by omega, hlo, hhi⟩
    exact (Nat.le_floor_iff' (by omega)).mp (by omega)
  · rintro ⟨jj, kk, hj1, hj2, hk1, hk2, hlo, hhi⟩
    have := (Nat.le_floor_iff' (show jj ≠ 0 by omega)).mpr hj2
    exact ⟨jj, ⟨hj1, by omega⟩, kk, ⟨hk1, by omega⟩, hlo, hhi⟩

theorem similar_iff_hits_pos (d : Distiller) (a b : Candidate) :
    d.similar a b = true ↔ 0 < d.hits a b := by
  simp [Distiller.similar]

theorem similar_dm_iff (t : ℚ) (a b : Candidate) :
    (Distiller.dm t).similar a b = true ↔
      b.freq / a.freq > 1 - t ∧ b.freq / a.freq < 1 + t := by
  rw [similar_iff_hits_pos]
  simp only [Distiller.hits]
  split_ifs with h <;> simp [h]

theorem similar_circular_iff (t : ℚ) (a b : Candidate) :
    (Distiller.circular t).similar a b = true ↔
      b.freq > a.freq * (1 - a.n * a.a1) - a.freq * t ∧
        b.freq < a.freq * (1 + a.n * a.a1) + a.freq * t := by
  rw [similar_iff_hits_pos]
  simp only [Distiller.hits, Template_Bank_Circular_Distiller.min_doppler_freq_template_bank,
    Template_Bank_Circular_Distiller.max_doppler_freq_template_bank]
  split_ifs with h <;> simp [h]

theorem similar_polynomial_iff (ft atol jt : ℚ) (a b : Candidate) :
    (Distiller.polynomial ft atol jt).similar a b = true ↔
      |b.freq - a.freq| < |a.freq| * ft + 1e-8 ∧ |b.acc - a.acc| < |a.acc| * atol + 1e-8
        ∧ |b.jerk - a.jerk| < |a.jerk| * jt + 1e-8 := by
  rw [similar_iff_hits_pos]
  simp only [Distiller.hits]
  split_ifs with h <;> simp [h]

theorem similar_acceleration_iff (tobs t : ℚ) (a b : Candidate) :
    (Distiller.acceleration tobs t).similar a b = true ↔
      (a.freq + (a.acc - b.acc) * a.freq * (tobs / SPEED_OF_LIGHT) > a.freq ∧
          b.freq > a.freq - a.freq * t ∧
          b.freq < a.freq + (a.acc - b.acc) * a.freq * (tobs / SPEED_OF_LIGHT) + a.freq * t) ∨
        (¬ a.freq + (a.acc - b.acc) * a.freq * (tobs / SPEED_OF_LIGHT) > a.freq ∧
          b.freq < a.freq + a.freq * t ∧
          b.freq > a.freq + (a.acc - b.acc) * a.freq * (tobs / SPEED_OF_LIGHT) - a.freq * t) := by
  rw [similar_iff_hits_pos]
  simp only [Distiller.hits, AccelerationDistiller.correct_for_acceleration]
  split_ifs with h1 h2 h2 <;> simp [h1, h2]

/-- C18 (tolerance monotonicity): for a representative `a` of positive frequency and any
candidate `b`, each of the five similarity tests that passes under some tolerance(s) passes
under any larger tolerance(s) (component-wise for the polynomial test), so lowering a
tolerance never adds a matching pair; and the DM and harmonic tests pass for no pair when the
tolerance is `≤ 0`. -/
theorem tolerance_monotone (a b : Candidate) (hfa : 0 < a.freq) :
    (∀ (t t' mh : ℚ) (fh : Bool), t ≤ t' → (Distiller.harmonic t mh fh).similar a b = true →
        (Distiller.harmonic t' mh fh).similar a b = true) ∧
      (∀ tobs t t' : ℚ, t ≤ t' → (Distiller.acceleration tobs t).similar a b = true →
        (Distiller.acceleration tobs t').similar a b = true) ∧
      (∀ t t' : ℚ, t ≤ t' → (Distiller.circular t).similar a b = true →
        (Distiller.circular t').similar a b = true) ∧
      (∀ t t' : ℚ, t ≤ t' → (Distiller.dm t).similar a b = true →
        (Distiller.dm t').similar a b = true) ∧
      (∀ ft atol jt ft' atol' jt' : ℚ, ft ≤ ft' → atol ≤ atol' → jt ≤ jt' →
        (Distiller.polynomial ft atol jt).similar a b = true →
        (Distiller.polynomial ft' atol' jt').similar a b = true) ∧
      (∀ t : ℚ, t ≤ 0 → (Distiller.dm t).similar a b = false) ∧
      (∀ (t mh : ℚ) (fh : Bool), t ≤ 0 → (Distiller.harmonic t mh fh).similar a b = false) := by
  refine ⟨?_, ?_, ?_, ?_, ?_, ?_, ?_⟩
  · intro t t' mh fh htt h
    rw [similar_iff_hits_pos, hits_harmonic_pos_iff] at h ⊢
    obtain ⟨jj, kk, hj1, hj2, hk1, hk2, hlo, hhi⟩ := h
    exact ⟨jj, kk, hj1, hj2, hk1, hk2, by linarith, by linarith⟩
  · intro tobs t t' htt h
    have he : a.freq * t ≤ a.freq * t' := mul_le_mul_of_nonneg_left htt (le_of_lt hfa)
    rw [similar_acceleration_iff] at h ⊢
    rcases h with ⟨hc, hlo, hhi⟩ | ⟨hc, hhi, hlo⟩
    · exact Or.inl ⟨hc, by linarith, by linarith⟩
    · exact Or.inr ⟨hc, by linarith, by linarith⟩
  · intro t t' htt h
    have he : a.freq * t ≤ a.freq * t' := mul_le_mul_of_nonneg_left htt (le_of_lt hfa)
    rw [similar_circular_iff] at h ⊢
    exact ⟨by linarith [h.1], by linarith [h.2]⟩
  · intro t t' htt h
    rw [similar_dm_iff] at h ⊢
    exact ⟨by linarith [h.1], by linarith [h.2]⟩
  · intro ft atol jt ft' atol' jt' hf ha hj h
    have h1 : |a.freq| * ft ≤ |a.freq| * ft' := mul_le_mul_of_nonneg_left hf (abs_nonneg _)
    have h2 : |a.acc| * atol ≤ |a.acc| * atol' := mul_le_mul_of_nonneg_left ha (abs_nonneg _)
    have h3 : |a.jerk| * jt ≤ |a.jerk| * jt' := mul_le_mul_of_nonneg_left hj (abs_nonneg _)
    rw [similar_polynomial_iff] at h ⊢
    exact ⟨by linarith [h.1], by linarith [h.2.1], by linarith [h.2.2]⟩
  · intro t ht
    rw [Bool.eq_false_iff, ne_eq, similar_dm_iff]
    rintro ⟨hlo, hhi⟩
    linarith
  · intro t mh fh ht
    rw [Bool.eq_false_iff, ne_eq, similar_iff_hits_pos, hits_harmonic_pos_iff]
    rintro ⟨jj, kk, _, _, _, _, hlo, hhi⟩
    linarith

/-- Witness for C18 on the first two candidates of the DM scenario. -/
theorem tolerance_monotone_witness :
    (∀ (t t' mh : ℚ) (fh : Bool), t ≤ t' →
        (Distiller.harmonic t mh fh).similar (mkCand 10 100) (mkCand 8 100.0005) = true →
        (Distiller.harmonic t' mh fh).similar (mkCand 10 100) (mkCand 8 100.0005) = true) ∧
      (∀ tobs t t' : ℚ, t ≤ t' →
        (Distiller.acceleration tobs t).similar (mkCand 10 100) (mkCand 8 100.0005) = true →
        (Distiller.acceleration tobs t').similar (mkCand 10 100) (mkCand 8 100.0005) = true) ∧
      (∀ t t' : ℚ, t ≤ t' →
        (Distiller.circular t).similar (mkCand 10 100) (mkCand 8 100.0005) = true →
        (Distiller.circular t').similar (mkCand 10 100) (mkCand 8 100.0005) = true) ∧
      (∀ t t' : ℚ, t ≤ t' →
        (Distiller.dm t).similar (mkCand 10 100) (mkCand 8 100.0005) = true →
        (Distiller.dm t').similar (mkCand 10 100) (mkCand 8 100.0005) = true) ∧
      (∀ ft atol jt ft' atol' jt' : ℚ, ft ≤ ft' → atol ≤ atol' → jt ≤ jt' →
        (Distiller.polynomial ft atol jt).similar (mkCand 10 100) (mkCand 8 100.0005) = true →
        (Distiller.polynomial ft' atol' jt').similar (mkCand 10 100) (mkCand 8 100.0005)
          = true) ∧
      (∀ t : ℚ, t ≤ 0 →
        (Distiller.dm t).similar (mkCand 10 100) (mkCand 8 100.0005) = false) ∧
      (∀ (t mh : ℚ) (fh : Bool), t ≤ 0 →
        (Distiller.harmonic t mh fh).similar (mkCand 10 100) (mkCand 8 100.0005) = false) :=
  tolerance_monotone (mkCand 10 100) (mkCand 8 100.0005) (by norm_num [mkCand])

/-! ### The greedy characterisation of the mask -/

theorem mark_snd_getD (hits : Candidate → Candidate → ℕ) (a : Candidate) :
    ∀ (rest : List (Candidate × Bool)) (j : ℕ), j < rest.length →
      ((mark hits a rest).map Prod.snd).getD j true
        = ((rest.map Prod.snd).getD j true
            && decide (hits a ((rest.map Prod.fst).getD j default) = 0)) := by
  intro rest
  induction rest with
  | nil => intro j hj; simp at hj
  | cons p t ih =>
    intro j hj
    cases j with
    | zero => simp [mark]
    | succ j =>
      have := ih j (by simpa using hj)
      simpa [mark] using this

/-- The mask the sweep ends with: an entry is cleared exactly when it was cleared at the start
or an earlier entry that is still set belongs to a candidate the test passes for. -/
theorem sweepSpec_mask_iff (hits : Candidate → Candidate → ℕ) (keep : Bool) :
    ∀ (n : ℕ) (l : List (Candidate × Bool)), l.length = n → ∀ j, j < l.length →
      (((sweepSpec hits keep l).map Prod.snd).getD j true = false ↔
        (l.map Prod.snd).getD j true = false ∨
          ∃ i, i < j ∧ ((sweepSpec hits keep l).map Prod.snd).getD i false = true ∧
            0 < hits ((l.map Prod.fst).getD i default) ((l.map Prod.fst).getD j default)) := by
  intro n
  induction n with
  | zero =>
    intro l hl j hj
    omega
  | succ n ih =>
    intro l hl j hj
    match l, hl with
    | (a, false) :: rest, hl =>
      rw [sweepSpec_false]
      cases j with
      | zero => simp
      | succ j =>
        have h := ih rest (by simpa using hl) j (by simpa using hj)
        simp only [List.map_cons, List.getD_cons_succ]
        rw [h]
        constructor
        · rintro (h | ⟨i, hi, hu, hh⟩)
          · exact Or.inl h
          · exact Or.inr ⟨i + 1, by omega, by simpa using hu, by simpa using hh⟩
        · rintro (h | ⟨i, hi, hu, hh⟩)
          · exact Or.inl h
          · cases i with
            | zero => simp at hu
            | succ i => exact Or.inr ⟨i, by omega, by simpa using hu, by simpa using hh⟩
    | (a, true) :: rest, hl =>
      rw [sweepSpec_true]
      cases j with
      | zero => simp
      | succ j =>
        have hj' : j < rest.length := by simpa using hj
        have h := ih (mark hits a rest) (by rw [mark_length]; simpa using hl) j
          (by rw [mark_length]; exact hj')
        rw [mark_fst, mark_snd_getD hits a rest j hj'] at h
        simp only [List.map_cons, List.getD_cons_succ]
        rw [h]
        constructor
        · rintro (h | ⟨i, hi, hu, hh⟩)
          · rw [Bool.and_eq_false_iff, decide_eq_false_iff_not] at h
            rcases h with h | h
            · exact Or.inl h
            · exact Or.inr ⟨0, by omega, by simp, by simpa using Nat.pos_of_ne_zero h⟩
          · exact Or.inr ⟨i + 1, by omega, by simpa using hu, by simpa using hh⟩
        · rintro (h | ⟨i, hi, hu, hh⟩)
          · exact Or.inl (by rw [Bool.and_eq_false_iff]; exact Or.inl h)
          · cases i with
            | zero =>
              refine Or.inl ?_
              have : hits a ((rest.map Prod.fst).getD j default) ≠ 0 := by
                simpa using Nat.pos_iff_ne_zero.mp hh
              rw [Bool.and_eq_false_iff, decide_eq_false_iff_not]
              exact Or.inr this
            | succ i => exact Or.inr ⟨i, by omega, by simpa using hu, by simpa using hh⟩

theorem distill_mask_iff (S : StdSort) (d : Distiller) (keep : Bool) (cands : List Candidate)
    (j : ℕ) (hj : j < cands.length) :
    (distill S d keep cands).unique.getD j true = false ↔
      ∃ i, i < j ∧ (distill S d keep cands).unique.getD i false = true ∧
        d.similar ((S.sort cands).getD i default) ((S.sort cands).getD j default) = true := by
  have hlen : (S.sort cands).length = cands.length := (S.perm cands).length_eq
  have h := sweepSpec_mask_iff d.hits keep _ ((S.sort cands).map (fun c => (c, true))) rfl j
    (by simpa [hlen] using hj)
  have hfst : ((S.sort cands).map (fun c => (c, true))).map Prod.fst = S.sort cands := by
    rw [List.map_map]
    simp [Function.comp_def]
  have hsnd : (((S.sort cands).map (fun c => (c, true))).map Prod.snd).getD j true = true := by
    rw [List.map_map, List.getD_eq_getElem?_getD]
    simp only [Function.comp_def, List.getElem?_map]
    cases (S.sort cands)[j]? <;> rfl
  rw [hfst, hsnd] at h
  rw [distill_eq]
  simp only [h, similar_iff_hits_pos]
  simp

theorem distill_new_cands_eq_filter (S : StdSort) (d : Distiller) (keep : Bool)
    (cands : List Candidate) :
    (distill S d keep cands).new_cands
      = (((distill S d keep cands).cands.zip (distill S d keep cands).unique).filter
          Prod.snd).map Prod.fst := by
  rw [distill_eq]
  simp only [zip_fst_snd]

theorem distill_head (S : StdSort) (d : Distiller) (keep : Bool) (cands : List Candidate)
    (hne : cands ≠ []) :
    (distill S d keep cands).unique.getD 0 false = true ∧
      (distill S d keep cands).new_cands.head? = (distill S d keep cands).cands.head? := by
  have hlen : (S.sort cands).length = cands.length := (S.perm cands).length_eq
  rw [distill_eq]
  cases hs : S.sort cands with
  | nil =>
    rw [hs] at hlen
    exact absurd (List.length_eq_zero.mp hlen.symm) hne
  | cons a t =>
    simp [sweepSpec_true]

/-- With `keep` set, every candidate that is unique at the start ends either as a returned
candidate (same scalar fields, `related` extended) or among the related ones of one. -/
theorem sweepSpec_no_loss (hits : Candidate → Candidate → ℕ) :
    ∀ (n : ℕ) (l : List (Candidate × Bool)), l.length = n → ∀ q ∈ l, q.2 = true →
      (∃ p ∈ sweepSpec hits true l, p.2 = true ∧ p.1.scalars = q.1.scalars
          ∧ q.1.related <+: p.1.related) ∨
        (∃ p ∈ sweepSpec hits true l, p.2 = true ∧ q.1 ∈ p.1.related) := by
  intro n
  induction n with
  | zero =>
    intro l hl
    have : l = [] := List.length_eq_zero.mp hl
    subst this
    simp
  | succ n ih =>
    intro l hl q hq hq2
    match l, hl with
    | (a, false) :: rest, hl =>
      rw [sweepSpec_false]
      rcases List.mem_cons.mp hq with rfl | hq
      · simp at hq2
      · rcases ih rest (by simpa using hl) q hq hq2 with ⟨p, hp, h⟩ | ⟨p, hp, h⟩
        · exact Or.inl ⟨p, List.mem_cons_of_mem _ hp, h⟩
        · exact Or.inr ⟨p, List.mem_cons_of_mem _ hp, h⟩
    | (a, true) :: rest, hl =>
      rw [sweepSpec_true]
      rcases List.mem_cons.mp hq with rfl | hq
      · refine Or.inl ⟨_, List.mem_cons_self _ _, rfl, grow_scalars _ _ _, ?_⟩
        simp [grow]
      · by_cases h0 : hits a q.1 = 0
        · have hq' : (q.1, q.2 && decide (hits a q.1 = 0)) ∈ mark hits a rest :=
            List.mem_map_of_mem _ hq
          rcases ih (mark hits a rest) (by rw [mark_length]; simpa using hl) _ hq'
            (by simp [hq2, h0]) with ⟨p, hp, h⟩ | ⟨p, hp, h⟩
          · exact Or.inl ⟨p, List.mem_cons_of_mem _ hp, h⟩
          · exact Or.inr ⟨p, List.mem_cons_of_mem _ hp, h⟩
        · refine Or.inr ⟨_, List.mem_cons_self _ _, rfl, ?_⟩
          simp only [grow, if_true, List.mem_append, relatedOf, List.mem_flatMap,
            List.mem_replicate]
          exact Or.inr ⟨q, hq, h0, rfl⟩

/-- C19 (greedy characterisation): the candidate at position `j` of the sorted vector is
absent from the returned vector (its mask entry is cleared) if and only if some candidate at
a position `i < j` that is in the returned vector (mask entry set) is similar to it under the
active test; no returned candidate is similar to one returned before it; for a non-empty
input the first sorted candidate is returned first; the returned vector is the part of the
vector left behind whose mask entry is set. -/
theorem greedy_characterisation (S : StdSort) (d : Distiller) (keep_related : Bool)
    (cands : List Candidate) :
    (∀ j, j < cands.length →
      ((distill S d keep_related cands).unique.getD j true = false ↔
        ∃ i, i < j ∧ (distill S d keep_related cands).unique.getD i false = true ∧
          d.similar ((S.sort cands).getD i default) ((S.sort cands).getD j default) = true)) ∧
      (distill S d keep_related cands).new_cands.Pairwise (fun a b => d.similar a b = false) ∧
      (cands ≠ [] →
        (distill S d keep_related cands).unique.getD 0 false = true ∧
          (distill S d keep_related cands).new_cands.head?
            = (distill S d keep_related cands).cands.head?) ∧
      (distill S d keep_related cands).new_cands
        = (((distill S d keep_related cands).cands.zip
            (distill S d keep_related cands).unique).filter Prod.snd).map Prod.fst := by
  refine ⟨fun j hj => distill_mask_iff S d keep_related cands j hj, ?_,
    distill_head S d keep_related cands, distill_new_cands_eq_filter S d keep_related cands⟩
  have h := sweepSpec_output_pairwise d keep_related _
    ((S.sort cands).map (fun c => (c, true))) rfl
  rw [distill_eq]
  exact h.imp (fun {a b} hab => by simp [Distiller.similar, hab])

/-- C17 (multi-cluster membership): a candidate that a representative in the returned vector
is similar to is never in the returned vector (its mask entry is cleared); yet with
`keep_related` set and the DM distiller at tolerance 0.01, the candidate at 100.8 Hz is
recorded in the related sequences of both returned representatives, 100 Hz and 101.5 Hz. -/
theorem multi_cluster_membership :
    (∀ (S : StdSort) (d : Distiller) (keep_related : Bool) (cands : List Candidate) (i j : ℕ),
      i < j → j < cands.length →
      (distill S d keep_related cands).unique.getD i false = true →
      d.similar ((S.sort cands).getD i default) ((S.sort cands).getD j default) = true →
      (distill S d keep_related cands).unique.getD j true = false) ∧
    (∀ S : StdSort, (distill S (Distiller.dm 0.01) true multiInput).new_cands
      = [{ mkCand 10 100 with related := [mkCand 5 100.8] },
          { mkCand 8 101.5 with related := [mkCand 5 100.8] }]) := by
  constructor
  · intro S d keep cands i j hij hj hu hs
    exact (distill_mask_iff S d keep cands j hj).mpr ⟨i, hij, hu, hs⟩
  · intro S
    have hs : S.sort multiInput = multiInput :=
      sort_eq_of_strict S multiInput (by simp [multiInput, mkCand]; norm_num)
    rw [distill_eq, hs]
    norm_num [multiInput, sweepSpec_true, sweepSpec_false, sweepSpec_nil, mark, relatedOf,
      grow, Distiller.hits, mkCand]

/-- C20 (no detection is lost when provenance is kept): with `keep_related` set, every input
candidate is either in the returned vector (with its scalar fields, its `related` sequence
possibly extended) or in the `related` sequence of a returned candidate; and `count`, the
number of `condition` calls, is the length of the returned vector. -/
theorem no_detection_lost (S : StdSort) (d : Distiller) (cands : List Candidate) :
    (∀ c ∈ cands,
      (∃ r ∈ (distill S d true cands).new_cands,
          r.scalars = c.scalars ∧ c.related <+: r.related) ∨
        (∃ r ∈ (distill S d true cands).new_cands, c ∈ r.related)) ∧
      (distill S d true cands).count = (distill S d true cands).new_cands.length := by
  rw [distill_eq]
  constructor
  · intro c hc
    have hc' : (c, true) ∈ (S.sort cands).map (fun c => (c, true)) :=
      List.mem_map_of_mem _ ((S.perm cands).mem_iff.mpr hc)
    rcases sweepSpec_no_loss d.hits _ _ rfl (c, true) hc' rfl with
      ⟨p, hp, hp2, h⟩ | ⟨p, hp, hp2, h⟩
    · exact Or.inl ⟨p.1, List.mem_map_of_mem _ (List.mem_filter.mpr ⟨hp, hp2⟩), h⟩
    · exact Or.inr ⟨p.1, List.mem_map_of_mem _ (List.mem_filter.mpr ⟨hp, hp2⟩), h⟩
  · simp [List.countP_eq_length_filter]

/-- C15 (single append per match), the code at a failing input: with `keep_related` set, the
harmonic distiller with `max_harm = 2`, fractional harmonics and tolerance 0.001, run on two
candidates at 50 Hz of which the second has harmonic number 1, records the second candidate
twice in the related sequence of the first: the test passes for `(jj, kk) = (1, 1)` and for
`(2, 2)`, and the matched body runs each time. -/
theorem harmonic_appends_twice (S : StdSort) :
    (distill S (Distiller.harmonic 0.001 2 true) true doubleInput).new_cands
      = [{ (⟨10, 50, 0, 0, 0, 0, 0, 0, []⟩ : Candidate) with
            related := [⟨5, 50, 0, 0, 1, 0, 0, 0, []⟩, ⟨5, 50, 0, 0, 1, 0, 0, 0, []⟩] }] := by
  have hs : S.sort doubleInput = doubleInput :=
    sort_eq_of_strict S doubleInput (by simp [doubleInput]; norm_num)
  have h2 : ⌊(2 : ℚ)⌋₊ = 2 := Nat.floor_ofNat 2
  have r2 : List.range' 1 2 = [1, 2] := rfl
  have hh : (Distiller.harmonic 0.001 2 true).hits ⟨10, 50, 0, 0, 0, 0, 0, 0, []⟩
      ⟨5, 50, 0, 0, 1, 0, 0, 0, []⟩ = 2 := by
    simp only [Distiller.hits, h2, if_true, pow_one, r2, List.map_cons, List.map_nil,
      List.countP_cons, List.countP_nil]
    norm_num
  rw [distill_eq, hs]
  simp only [doubleInput, List.map_cons, List.map_nil, sweepSpec_true, mark, relatedOf,
    List.flatMap_cons, List.flatMap_nil, hh]
  simp [sweepSpec_false, sweepSpec_nil, grow, List.replicate]

/-! ## The template-bank reader -/

namespace Polynomial_TemplateBank_Reader

theorem try_parse_header_line_false (r r1 : Polynomial_TemplateBank_Reader) (t : List Char)
    (h : try_parse_header_line r t = (false, r1)) : r1 = r := by
  simp only [try_parse_header_line] at h
  split_ifs at h <;> simp_all

/-- A line on which the loop body throws: the reader is as before the line, but for the
column count, which is set from the line when it was still `0`, and the error reports the
token count and the trimmed line. -/
theorem readLine_error (stod : List Char → Option ℚ) (r r' : Polynomial_TemplateBank_Reader)
    (line : List Char) (e : LoadError) (h : readLine stod r line = (r', some e)) :
    r' = (if r.columns = 0 then { r with columns := (split (trim line)).length } else r) ∧
      e = LoadError.invalidLine (split (trim line)).length (trim line) := by
  rcases hph : try_parse_header_line r (trim line) with ⟨b, r1⟩
  cases b with
  | true =>
    simp only [readLine, hph] at h
    split_ifs at h <;> simp at h
  | false =>
    have hr1 := try_parse_header_line_false r r1 _ hph
    subst hr1
    simp only [readLine, hph] at h
    split_ifs at h <;> simp_all

theorem readLines_cons_ok (stod : List Char → Option ℚ) (r r1 : Polynomial_TemplateBank_Reader)
    (line : List Char) (rest : List (List Char)) (h : readLine stod r line = (r1, none)) :
    readLines stod r (line :: rest) = readLines stod r1 rest := by
  simp [readLines, h]

theorem readLines_cons_error (stod : List Char → Option ℚ)
    (r r1 : Polynomial_TemplateBank_Reader) (line : List Char) (rest : List (List Char))
    (e : LoadError) (h : readLine stod r line = (r1, some e)) :
    readLines stod r (line :: rest) = (r1, some e) := by
  simp [readLines, h]

/-- A failing loop stops at some line `bad`: the lines before it were read without an error,
and `bad` makes the body throw in the state they left. -/
theorem readLines_error (stod : List Char → Option ℚ) (lines : List (List Char)) :
    ∀ (r r' : Polynomial_TemplateBank_Reader) (e : LoadError),
      readLines stod r lines = (r', some e) →
      ∃ pre bad post, lines = pre ++ bad :: post ∧ (readLines stod r pre).2 = none ∧
        readLine stod (readLines stod r pre).1 bad = (r', some e) := by
  induction lines with
  | nil =>
    intro r r' e h
    simp [readLines] at h
  | cons line rest ih =>
    intro r r' e h
    rcases hl : readLine stod r line with ⟨r1, _ | e1⟩
    · rw [readLines_cons_ok stod r r1 line rest hl] at h
      obtain ⟨pre, bad, post, hsplit, hok, hbad⟩ := ih r1 r' e h
      refine ⟨line :: pre, bad, post, by simp [hsplit], ?_, ?_⟩
      · rw [readLines_cons_ok stod r r1 line pre hl]
        exact hok
      · rw [readLines_cons_ok stod r r1 line pre hl]
        exact hbad
    · rw [readLines_cons_error stod r r1 line rest e1 hl] at h
      refine ⟨[], line, rest, rfl, rfl, ?_⟩
      simpa [readLines, hl] using h

/-- C13 (the reader rejects malformed rows), the code at a failing input: for a `std::stod`
that reads `1.5` and rejects `abc`, `load` of a file whose only line is `1.5 abc`, two tokens
of which one is numeric, returns without an error and leaves the reader untouched, the line
being taken for a column header; the three-token line `1.5 abc 7` does make `load` throw. -/
theorem mixed_two_token_row_skipped (stod : List Char → Option ℚ)
    (r : Polynomial_TemplateBank_Reader) (x : ℚ)
    (h1 : stod (String.toList "1.5") = some x) (h2 : stod (String.toList "abc") = none) :
    load stod r (some [String.toList "1.5 abc"]) = (r, none) ∧
      load stod r (some [String.toList "1.5 abc 7"])
        = (if r.columns = 0 then { r with columns := 3 } else r,
            some (LoadError.invalidLine 3 (String.toList "1.5 abc 7"))) := by
  have ht : trim (String.toList "1.5 abc") = String.toList "1.5 abc" := by decide
  have hc : is_comment (String.toList "1.5 abc") = false := by decide
  have hk1 : starts_with (to_lower (trim (String.toList "1.5 abc")))
      (String.toList "maximum acceleration used to generate template") = false := by decide
  have hk2 : starts_with (to_lower (trim (String.toList "1.5 abc")))
      (String.toList "maximum jerk used to generate template") = false := by decide
  have hs : split (String.toList "1.5 abc") = [String.toList "1.5", String.toList "abc"] := by
    decide
  have ht' : trim (String.toList "1.5 abc 7") = String.toList "1.5 abc 7" := by decide
  have hc' : is_comment (String.toList "1.5 abc 7") = false := by decide
  have hk1' : starts_with (to_lower (trim (String.toList "1.5 abc 7")))
      (String.toList "maximum acceleration used to generate template") = false := by decide
  have hk2' : starts_with (to_lower (trim (String.toList "1.5 abc 7")))
      (String.toList "maximum jerk used to generate template") = false := by decide
  have hs' : split (String.toList "1.5 abc 7")
      = [String.toList "1.5", String.toList "abc", String.toList "7"] := by decide
  have hp : try_parse_header_line r (String.toList "1.5 abc") = (false, r) := by
    simp only [try_parse_header_line, hk1, hk2]
    simp
  have hp' : try_parse_header_line r (String.toList "1.5 abc 7") = (false, r) := by
    simp only [try_parse_header_line, hk1', hk2']
    simp
  have h1' : stod ['1', '.', '5'] = some x := h1
  have h2' : stod ['a', 'b', 'c'] = none := h2
  constructor
  · simp only [load, readLines, readLine, ht, hc, hp, hs]
    simp [token_is_number, h1', h2']
  · simp only [load, readLines, readLine, ht', hc', hp', hs']
    by_cases hcol : r.columns = 0 <;> simp [token_is_number, h1', h2', hcol]

/-- Witness for C13 with the sample `std::stod`. -/
theorem mixed_two_token_row_skipped_witness :
    load sampleStod fresh (some [String.toList "1.5 abc"]) = (fresh, none) ∧
      load sampleStod fresh (some [String.toList "1.5 abc 7"])
        = (if fresh.columns = 0 then { fresh with columns := 3 } else fresh,
            some (LoadError.invalidLine 3 (String.toList "1.5 abc 7"))) :=
  mixed_two_token_row_skipped sampleStod fresh (3 / 2) (by simp [sampleStod, digitsValue]; norm_num)
    (by decide)

/-- C14 (failure of `load`), as amended: when `load` throws on a malformed data row, the
reader holds exactly what `load` of the lines before that row leaves behind, without an
error, in its acceleration list, jerk list, metadata and column count, except that a column
count still `0` is set to the token count of the malformed row; the error carries that token
count and the trimmed row. -/
theorem load_failure_state (stod : List Char → Option ℚ)
    (r r' : Polynomial_TemplateBank_Reader) (file : Option (List (List Char))) (n : ℕ)
    (t : List Char) (h : load stod r file = (r', some (LoadError.invalidLine n t))) :
    ∃ pre bad post, file = some (pre ++ bad :: post) ∧
      (load stod r (some pre)).2 = none ∧
      r' = (if (load stod r (some pre)).1.columns = 0
        then { (load stod r (some pre)).1 with columns := (split (trim bad)).length }
        else (load stod r (some pre)).1) ∧
      n = (split (trim bad)).length ∧ t = trim bad := by
  cases file with
  | none => simp [load] at h
  | some lines =>
    obtain ⟨pre, bad, post, hsplit, hok, hbad⟩ := readLines_error stod lines r r' _ h
    obtain ⟨hr', he⟩ := readLine_error stod _ r' bad _ hbad
    simp only [LoadError.invalidLine.injEq] at he
    exact ⟨pre, bad, post, by rw [hsplit], hok, hr', he.1, he.2⟩

/-- Witness for C14 (amended) on the two-line file `1 2`, `3`. -/
theorem load_failure_state_witness :
    ∃ pre bad post, some [String.toList "1 2", String.toList "3"] = some (pre ++ bad :: post) ∧
      (load sampleStod fresh (some pre)).2 = none ∧
      (⟨[1], [2], 2, []⟩ : Polynomial_TemplateBank_Reader)
        = (if (load sampleStod fresh (some pre)).1.columns = 0
          then { (load sampleStod fresh (some pre)).1 with columns := (split (trim bad)).length }
          else (load sampleStod fresh (some pre)).1) ∧
      1 = (split (trim bad)).length ∧ String.toList "3" = trim bad :=
  load_failure_state sampleStod fresh ⟨[1], [2], 2, []⟩
    (some [String.toList "1 2", String.toList "3"]) 1 (String.toList "3") (by decide)

/-- C14 (failure of `load` is atomic), counterexample: `load` into a fresh reader of the
two-line file `1 2`, `3` throws on the second line and leaves the first row and the column
count in the reader. -/
theorem load_failure_counterexample :
    load sampleStod fresh (some [String.toList "1 2", String.toList "3"])
        = (⟨[1], [2], 2, []⟩, some (LoadError.invalidLine 1 (String.toList "3"))) ∧
      (⟨[1], [2], 2, []⟩ : Polynomial_TemplateBank_Reader) ≠ fresh := by
  constructor
  · decide
  · simp [fresh]

end Polynomial_TemplateBank_Reader

end Distill
